import Mathlib

/-!
Verification of the name→profession pipeline scripts
(`scripts/analyze_name_profession.py`, `scripts/enrich_etymology.py`,
`scripts/score_etymology_to_profession.py`).

The Python code is shallowly embedded: strings are Lean `String`s, Python
sets are `Finset String`, Python dicts are association lists or functions,
Python floats are modelled by exact arithmetic (`ℚ` for probabilities and
alignment scores, `ℝ` with `Real.logb` for PMI values), and fallible
indexing (`ranked[0]` on an empty list) is modelled with `Option`.
-/

namespace NomenPipeline

/-! ## Character helpers

Python's `re` character classes and `str.lower` are modelled at the level
of Unicode code points (`Char.toNat`).  `\s` is modelled by the ASCII
whitespace characters: a non-ASCII whitespace character is mapped to a
plain space by the substitution instead of surviving it, which leaves
every split, strip and emptiness test the scripts perform unchanged
(`str.split()` and `str.strip()` do not distinguish whitespace
characters either).
-/

/-- Whitespace test modelling the characters matched by the regex class
`\s` (space, tab, newline, carriage return, vertical tab, form feed). -/
def isPySpace (c : Char) : Bool :=
  c.toNat = 32 || c.toNat = 9 || c.toNat = 10 || c.toNat = 13 ||
  c.toNat = 11 || c.toNat = 12

/-- Letter test for the analyzer's regex class `[A-Za-zÀ-ÖØ-öø-ÿ]`
(`clean` in `analyze_name_profession.py`, line 103). -/
def isKeptLetter (c : Char) : Bool :=
  (65 ≤ c.toNat && c.toNat ≤ 90) || (97 ≤ c.toNat && c.toNat ≤ 122) ||
  (192 ≤ c.toNat && c.toNat ≤ 214) || (216 ≤ c.toNat && c.toNat ≤ 246) ||
  (248 ≤ c.toNat && c.toNat ≤ 255)

/-- Python `str.lower` restricted to the Basic Latin and Latin-1 letters,
the only characters that survive the scripts' cleaning regexes: uppercase
`A-Z`, `À-Ö`, `Ø-Þ` shift by 32, everything else is unchanged. -/
def pyLowerChar (c : Char) : Char :=
  if h : (65 ≤ c.toNat ∧ c.toNat ≤ 90) ∨ (192 ≤ c.toNat ∧ c.toNat ≤ 214) ∨
      (216 ≤ c.toNat ∧ c.toNat ≤ 222) then
    Char.ofNatAux (c.toNat + 32) (Or.inl (by omega))
  else c

/-- Substitution step of the analyzer's `clean`:
`re.sub(r"[^A-Za-zÀ-ÖØ-öø-ÿ\s]", " ", s)` replaces every character that is
neither a kept letter nor whitespace by a space. -/
def subNonLetter (c : Char) : Char :=
  if isKeptLetter c || isPySpace c then c else ' '

/-- Python `str.strip` on a character list: drop leading and trailing
whitespace. -/
def pyStrip (l : List Char) : List Char :=
  ((l.dropWhile isPySpace).reverse.dropWhile isPySpace).reverse

/-- Splitter shared by `str.split()` (whitespace words) and
`re.findall(r"[a-z]+", s)` (letter runs): cut `l` into the maximal runs of
characters on which `sep` is false, discarding empty runs.  `acc` holds
the current run, reversed. -/
def wordsAux (sep : Char → Bool) : List Char → List Char → List (List Char)
  | [], acc => if acc.isEmpty then [] else [acc.reverse]
  | c :: rest, acc =>
    if sep c then
      if acc.isEmpty then wordsAux sep rest []
      else acc.reverse :: wordsAux sep rest []
    else wordsAux sep rest (c :: acc)

/-- Python `s.split()`: whitespace-delimited words, no empties. -/
def pySplit (s : String) : List String :=
  (wordsAux isPySpace s.data []).map List.asString

/-- Analyzer `clean(s)` (`analyze_name_profession.py`, lines 100-103):
keep letters and whitespace (everything else becomes a space), lowercase,
strip. -/
def clean (s : String) : String :=
  List.asString (pyStrip ((s.data.map subNonLetter).map pyLowerChar))

/-- Analyzer `char_trigrams(s)` (lines 105-108): remove spaces, then all
overlapping 3-character substrings (none if fewer than 3 characters). -/
def char_trigrams (s : String) : List String :=
  let l := s.data.filter (fun c => c ≠ ' ')
  if l.length < 3 then []
  else (List.range (l.length - 2)).map (fun i => List.asString ((l.drop i).take 3))

/-- Lexicographic code-point comparison on character lists (Python string
`<`). -/
def lexLt : List Char → List Char → Bool
  | [], [] => false
  | [], _ :: _ => true
  | _ :: _, [] => false
  | a :: as, b :: bs =>
    a.toNat < b.toNat || (a.toNat = b.toNat && lexLt as bs)

/-- Python string comparison `a < b` (lexicographic on code points). -/
def strLt (a b : String) : Bool :=
  lexLt a.data b.data

/-- Ascending insertion of a string into a sorted list: `x` goes before
the first element not below it. -/
def insertAsc (x : String) : List String → List String
  | [] => [x]
  | y :: ys => if strLt y x then y :: insertAsc x ys else x :: y :: ys

/-- Ascending insertion sort on strings, modelling Python `sorted` on
strings (used on sets, where all elements are distinct). -/
def sortAsc (l : List String) : List String :=
  l.foldr insertAsc []

/-- Python `max(parts, key=len)` (line 119): the first element of maximal
length, or `""` on the empty list (the source guards with
`if parts else ""`). -/
def maxByLen (l : List String) : String :=
  match l with
  | [] => ""
  | x :: xs => xs.foldl (fun b p => if p.length > b.length then p else b) x

/-- Analyzer `name_tokens(full_name, given_name, surname)` (lines
110-122): word tokens of the cleaned inputs, plus the first five character
trigrams of the longest word, filtered to length ≥ 2.  (The source guards
each `parts.extend` with `if field:`; this is equivalent because an empty
field cleans and splits to no words.) -/
def name_tokens (full given sur : String) : Finset String :=
  let parts := pySplit (clean full) ++ pySplit (clean given) ++ pySplit (clean sur)
  let longest := maxByLen parts
  let toks := parts.toFinset ∪ ((char_trigrams longest).take 5).toFinset
  toks.filter (fun t => 2 ≤ t.length)

/-- Insert a key into a `Counter`/dict-style key list: new keys are
appended, existing keys leave the list unchanged. -/
def insertKey (l : List String) (k : String) : List String :=
  if k ∈ l then l else l ++ [k]

/-- First-occurrence deduplication of a list (the key order of a Python
dict or set built by successive insertion). -/
def firstDedup (l : List String) : List String :=
  l.foldl insertKey []

/-- The token set of `name_tokens` enumerated as a sorted duplicate-free
list (a concrete enumeration of the Python set, used wherever the
scripts iterate over it). -/
def name_tokens_list (full given sur : String) : List String :=
  let parts := pySplit (clean full) ++ pySplit (clean given) ++ pySplit (clean sur)
  let longest := maxByLen parts
  sortAsc (firstDedup
    ((parts ++ (char_trigrams longest).take 5).filter (fun t => 2 ≤ t.length)))

/-- Join a list of words with single spaces (how a token set is rendered
back into one plain name string). -/
def joinWords : List String → String
  | [] => ""
  | [w] => w
  | w :: ws => w ++ " " ++ joinWords ws

/-- Re-tokenization: feed a token set (as its canonical list of plain
strings) back into token extraction as a full name. -/
def retok (toks : List String) : Finset String :=
  name_tokens (joinWords toks) "" ""

/-! ## PMI learner (`learn_pmi`, lines 126-172)

A fetched record is reduced to its four name/label fields (the field-map
indirection of `main` resolves Airtable column aliases; the learner only
ever reads these four strings, with missing fields defaulting to `""`).
`Counter` objects are modelled by count functions together with their key
lists in insertion order (`Counter` preserves first-insertion order).
-/

/-- Record as seen by the learner: the four strings read through
`field_map` (lines 136-141), absent fields already defaulted to `""`. -/
structure Rec where
  full : String
  given : String
  sur : String
  cluster : String
deriving DecidableEq

/-- Token set of a record, as computed at line 146. -/
def tokensOf (r : Rec) : Finset String :=
  name_tokens r.full r.given r.sur

/-- Guards of the learner loop (lines 142-147): the record is counted iff
some name field is non-empty, the cluster label is non-empty, and the
token set is non-empty. -/
def usable (r : Rec) : Bool :=
  (decide (r.full ≠ "") || decide (r.given ≠ "") || decide (r.sur ≠ "")) &&
  decide (r.cluster ≠ "") && decide (tokensOf r ≠ ∅)

/-- Token list of a record in some fixed order (Python iterates the token
set in unspecified order; every quantity the learner derives from it is
order-independent). -/
def tokListOf (r : Rec) : List String :=
  name_tokens_list r.full r.given r.sur

/-- State accumulated by the learner loop over the records:  example count
`N`, key lists of `cluster_counts`/`token_counts`, and the three count
functions (`cluster_counts`, `token_counts`, `joint_counts`). -/
structure PmiData where
  N : ℕ
  clusterKeys : List String
  tokenKeys : List String
  cCount : String → ℕ
  tCount : String → ℕ
  jCount : String → String → ℕ

/-- One iteration of the learner loop (lines 136-152). -/
def learnStep (st : PmiData) (r : Rec) : PmiData :=
  if usable r then
    { N := st.N + 1
      clusterKeys := insertKey st.clusterKeys r.cluster
      tokenKeys := (tokListOf r).foldl insertKey st.tokenKeys
      cCount := fun c => if c = r.cluster then st.cCount c + 1 else st.cCount c
      tCount := fun t => if t ∈ tokensOf r then st.tCount t + 1 else st.tCount t
      jCount := fun c t => if c = r.cluster ∧ t ∈ tokensOf r then st.jCount c t + 1
                           else st.jCount c t }
  else st

/-- Counting phase of `learn_pmi` over the fetched records. -/
def learnData (rs : List Rec) : PmiData :=
  rs.foldl learnStep ⟨0, [], [], fun _ => 0, fun _ => 0, fun _ _ => 0⟩

/-- Smoothed label probability (line 162), with `alpha = 1`:
`(cluster_counts[c] + 1) / (N + len(clusters))`. -/
def p_cluster (rs : List Rec) (c : String) : ℚ :=
  let d := learnData rs
  (d.cCount c + 1) / (d.N + d.clusterKeys.length)

/-- Smoothed token probability (line 163):
`(token_counts[t] + 1) / (N + len(tokens))`. -/
def p_token (rs : List Rec) (t : String) : ℚ :=
  let d := learnData rs
  (d.tCount t + 1) / (d.N + d.tokenKeys.length)

/-- Smoothed joint probability (line 168):
`(joint_counts[c][t] + 1) / (N + len(tokens) * len(clusters))`. -/
def p_joint (rs : List Rec) (c t : String) : ℚ :=
  let d := learnData rs
  (d.jCount c t + 1) / (d.N + d.tokenKeys.length * d.clusterKeys.length)

/-- Argument of the logarithm at line 170: `num / (p_cluster * p_token)`. -/
def pmiArg (rs : List Rec) (c t : String) : ℚ :=
  p_joint rs c t / (p_cluster rs c * p_token rs t)

/-- Learned association value `pmi[c][t] = math.log(num / denom, 2)`
(line 170). -/
noncomputable def pmiVal (rs : List Rec) (c t : String) : ℝ :=
  Real.logb 2 (pmiArg rs c t : ℚ)

/-- The learned PMI table as a partial dictionary: entries exist exactly
for the observed labels (outer keys) and observed tokens (inner keys),
matching `pmi[c][t]` being assigned for `c in clusters`, `t in tokens`
(lines 166-170). -/
noncomputable def learnedPmi (rs : List Rec) (c t : String) : Option ℝ :=
  if c ∈ (learnData rs).clusterKeys ∧ t ∈ (learnData rs).tokenKeys then
    some (pmiVal rs c t)
  else none

/-- Key list of the `pmi` defaultdict itself: `pmi[c]` is touched only
inside the inner `for t in tokens` loop, so the dict stays empty when
there are no observed tokens. -/
def pmiDictKeys (rs : List Rec) : List String :=
  if (learnData rs).tokenKeys = [] then [] else (learnData rs).clusterKeys

/-- Abort condition of `main` (lines 225-226):
`if N == 0 or not pmi: sys.exit(...)`. -/
def mainAborts (rs : List Rec) : Prop :=
  (learnData rs).N = 0 ∨ pmiDictKeys rs = []

instance (rs : List Rec) : Decidable (mainAborts rs) := by
  unfold mainAborts; infer_instance

/-! Specification-side counting functions: the quantities the spec's PMI
formula speaks about, defined directly as counts over the usable
(labeled, tokenizable) examples.  The theorems identify the learner's
fold-accumulated state with these. -/

/-- The labeled, tokenizable examples the learner counts. -/
def usableRecs (rs : List Rec) : List Rec :=
  rs.filter usable

/-- Number `N` of labeled, tokenizable examples. -/
def nEx (rs : List Rec) : ℕ :=
  (usableRecs rs).length

/-- `count(c)`: number of usable examples labeled `c`. -/
def labelCount (rs : List Rec) (c : String) : ℕ :=
  (usableRecs rs).countP (fun r => r.cluster == c)

/-- `count(t)`: number of usable examples whose token set contains `t`. -/
def tokCount (rs : List Rec) (t : String) : ℕ :=
  (usableRecs rs).countP (fun r => decide (t ∈ tokensOf r))

/-- `cocount(c,t)`: number of usable examples labeled `c` whose token set
contains `t`. -/
def coCount (rs : List Rec) (c t : String) : ℕ :=
  (usableRecs rs).countP (fun r => r.cluster == c && decide (t ∈ tokensOf r))

/-- The set of observed labels. -/
def observedLabels (rs : List Rec) : Finset String :=
  ((usableRecs rs).map (fun r => r.cluster)).toFinset

/-- The observed vocabulary: the union of the token sets of the usable
examples. -/
def observedVocab (rs : List Rec) : Finset String :=
  (usableRecs rs).foldr (fun r acc => tokensOf r ∪ acc) ∅

/-! ## Per-record scorer (`score_record`, lines 174-190)

The scorer is polymorphic in the numeric type: the pipeline instantiates
it at `ℝ` (PMI values are logarithms); witnesses instantiate it at `ℚ`.
A dict lookup with default, `pmi.get(c, {}).get(t, 0.0)`, is modelled by
an `Option`-valued table read with `getD 0`.  Python's `sorted` with
`reverse=True` is a stable descending sort, modelled by insertion sort
that keeps earlier elements ahead of later equal-valued ones.  The
`ranked[0]` indexing raises `IndexError` on an empty list; the model
returns `none` there.
-/

/-- Dictionary lookup with default `0.0`. -/
def dictGet {α : Type} [Zero α] (pmi : String → String → Option α)
    (c t : String) : α :=
  (pmi c t).getD 0

/-- Summed score of one label over a record's tokens (lines 178-183;
adding only the nonzero values equals adding all values).  The token set
is passed as the list in which Python would iterate it. -/
def scoreSum {α : Type} [LinearOrderedField α]
    (tokens : List String) (pmi : String → String → Option α) (c : String) : α :=
  (tokens.map (dictGet pmi c)).sum

/-- Stable insertion into a descending-by-score list.  `sortDesc` builds
the sort by `foldr`, so when `x` is inserted every element of the list
came later in the original order; placing `x` before the first element
whose score is `≤ x.2` reproduces the stability of Python's `sorted`
(equal keys keep original order, also under `reverse=True`). -/
def insertDesc {α : Type} [LinearOrderedField α] (x : String × α) :
    List (String × α) → List (String × α)
  | [] => [x]
  | y :: ys => if y.2 ≤ x.2 then x :: y :: ys else y :: insertDesc x ys

/-- Stable descending sort, modelling
`sorted(scores.items(), key=lambda kv: kv[1], reverse=True)` (line 184). -/
def sortDesc {α : Type} [LinearOrderedField α] (l : List (String × α)) :
    List (String × α) :=
  l.foldr insertDesc []

/-- `score_record(tokens, pmi, clusters)` (lines 174-190).  Returns
`(best cluster, gap, top-5 contributing tokens, scores dict as an
association list)`, or `none` where the source raises `IndexError`
(`ranked[0]` on an empty ranking).  The `scores` dict keys are the
first-occurrence deduplication of `clusters` (dict-comprehension
semantics, line 176). -/
def score_record {α : Type} [LinearOrderedField α] [DecidableEq α]
    (tokens : List String) (pmi : String → String → Option α)
    (clusters : List String) :
    Option (String × α × List (String × α) × List (String × α)) :=
  let items := (firstDedup clusters).map (fun c => (c, scoreSum tokens pmi c))
  match sortDesc items with
  | [] => none
  | (bc, bs) :: rest =>
    let second : α := match rest with
      | [] => 0
      | (_, s) :: _ => s
    let contrib := tokens.filterMap
      (fun t => let v := dictGet pmi bc t
                if v ≠ 0 then some (t, v) else none)
    some (bc, bs - second, (sortDesc contrib).take 5, items)

/-- Per-record step of the analyzer's write-back loop (lines 233-247):
records with an empty token set are skipped (`continue`) before any
scoring; otherwise the predicted cluster and the gap are written. -/
noncomputable def analyzeRecordOut (full given sur : String)
    (pmi : String → String → Option ℝ) (clusters : List String) :
    Option (String × ℝ) :=
  let tokens := name_tokens_list full given sur
  if tokens = [] then none
  else (score_record tokens pmi clusters).map (fun r => (r.1, r.2.1))

/-! ## Etymology enricher (`enrich_etymology.py`)

`strip_diacritics` applies NFD normalization and removes combining marks;
it is modelled by its action on the Latin-1 precomposed letters, the only
decomposable characters the downstream regex `[^a-z\s\-]` can retain a
trace of.  Letters with no NFD decomposition (`ß æ ø þ ð`) are unchanged,
exactly as in the source.
-/

namespace Enrich

/-- NFD-decompose-and-drop-marks on one character
(`strip_diacritics`, lines 45-47), tabulated over Latin-1. -/
def stripDiacriticChar : Char → Char
  | 'À' | 'Á' | 'Â' | 'Ã' | 'Ä' | 'Å' => 'A'
  | 'Ç' => 'C'
  | 'È' | 'É' | 'Ê' | 'Ë' => 'E'
  | 'Ì' | 'Í' | 'Î' | 'Ï' => 'I'
  | 'Ñ' => 'N'
  | 'Ò' | 'Ó' | 'Ô' | 'Õ' | 'Ö' => 'O'
  | 'Ù' | 'Ú' | 'Û' | 'Ü' => 'U'
  | 'Ý' => 'Y'
  | 'à' | 'á' | 'â' | 'ã' | 'ä' | 'å' => 'a'
  | 'ç' => 'c'
  | 'è' | 'é' | 'ê' | 'ë' => 'e'
  | 'ì' | 'í' | 'î' | 'ï' => 'i'
  | 'ñ' => 'n'
  | 'ò' | 'ó' | 'ô' | 'õ' | 'ö' => 'o'
  | 'ù' | 'ú' | 'û' | 'ü' => 'u'
  | 'ý' | 'ÿ' => 'y'
  | c => c

/-- `strip_diacritics(s)` (lines 45-47). -/
def strip_diacritics (s : String) : String :=
  List.asString (s.data.map stripDiacriticChar)

/-- Characters kept by the enricher's regex class `[a-z\s\-]` (line 51). -/
def isEnrichKept (c : Char) : Bool :=
  (97 ≤ c.toNat && c.toNat ≤ 122) || isPySpace c || c.toNat = 45

/-- Enricher `clean(s)` (lines 49-51): strip diacritics, lowercase,
replace everything outside `[a-z\s\-]` by a space, strip. -/
def clean (s : String) : String :=
  List.asString (pyStrip (((strip_diacritics s).data.map pyLowerChar).map
    (fun c => if isEnrichKept c then c else ' ')))

/-- Enricher `toks(s)` (lines 53-54): words of the cleaned string of
length ≥ 2. -/
def toks (s : String) : List String :=
  (pySplit (clean s)).filter (fun t => 2 ≤ t.length)

/-- Entry of the `GIVEN` / `SURNAME` lexicons (meaning, roots, origin,
source tag). -/
structure LexEntry where
  meaning : String
  roots : List String
  origin : String
  src : String

/-- Given-name lexicon `GIVEN` (lines 58-86). -/
def GIVEN : List (String × LexEntry) :=
  [("nikola", ⟨"victory of the people", ["nike", "laos"], "Greek", "lexicon"⟩),
   ("ada", ⟨"noble", ["noble"], "Germanic", "lexicon"⟩),
   ("leonardo", ⟨"lion-strong", ["leo", "hard"], "Germanic+Latin", "lexicon"⟩),
   ("gustav", ⟨"staff of the Goths", ["goth", "staff"], "Germanic", "lexicon"⟩),
   ("wilhelm", ⟨"will-helmet", ["will", "helm"], "Germanic", "lexicon"⟩),
   ("willi", ⟨"will-helmet", ["will", "helm"], "Germanic", "lexicon"⟩),
   ("willy", ⟨"will-helmet", ["will", "helm"], "Germanic", "lexicon"⟩),
   ("august", ⟨"venerable", ["venerable"], "Latin", "lexicon"⟩),
   ("rudolf", ⟨"fame-wolf", ["fame", "wolf"], "Germanic", "lexicon"⟩),
   ("paul", ⟨"small; humble", ["small", "humble"], "Latin", "lexicon"⟩),
   ("anton", ⟨"priceless; invaluable", ["priceless", "invaluable"], "Latin", "lexicon"⟩),
   ("albrecht", ⟨"noble-bright", ["noble", "bright"], "Germanic", "lexicon"⟩),
   ("georg", ⟨"earth-worker; farmer", ["earth", "work", "farmer"], "Greek", "lexicon"⟩),
   ("jorg", ⟨"earth-worker; farmer", ["earth", "work", "farmer"], "Greek", "lexicon"⟩),
   ("joerg", ⟨"earth-worker; farmer", ["earth", "work", "farmer"], "Greek", "lexicon"⟩),
   ("george", ⟨"earth-worker; farmer", ["earth", "work", "farmer"], "Greek", "lexicon"⟩),
   ("emil", ⟨"rival", ["rival"], "Latin", "lexicon"⟩),
   ("heinrich", ⟨"home-ruler", ["home", "ruler"], "Germanic", "lexicon"⟩),
   ("heinz", ⟨"home-ruler", ["home", "ruler"], "Germanic", "lexicon"⟩),
   ("arthur", ⟨"bear-man", ["bear", "man"], "Celtic", "lexicon"⟩),
   ("friedrich", ⟨"peace-ruler", ["peace", "ruler"], "Germanic", "lexicon"⟩),
   ("jean", ⟨"God is gracious", ["god", "grace"], "Hebrew→French", "lexicon"⟩),
   ("otto", ⟨"wealth, prosperity", ["wealth", "prosperity"], "Germanic", "lexicon"⟩),
   ("galileo", ⟨"from Galilee (place)", ["galilee", "place"], "Hebrew/Latin", "lexicon"⟩),
   ("michelangelo", ⟨"Michael + messenger", ["michael", "angel"], "Hebrew/Greek", "lexicon"⟩)]

/-- Surname lexicon `SURNAME` (lines 89-98). -/
def SURNAME : List (String × LexEntry) :=
  [("tesla", ⟨"adze; carpenter", ["adze", "carpenter"], "Slavic", "lexicon"⟩),
   ("smith", ⟨"metalworker", ["smith", "metal", "forge"], "English", "lexicon"⟩),
   ("miller", ⟨"operates a mill", ["mill", "grain"], "English", "lexicon"⟩),
   ("baker", ⟨"bakes bread", ["bake", "bread", "oven"], "English", "lexicon"⟩),
   ("fisher", ⟨"fisher", ["fish", "river"], "English", "lexicon"⟩),
   ("carpenter", ⟨"woodworker", ["wood", "carpenter"], "French/Latin", "lexicon"⟩),
   ("painter", ⟨"painter", ["paint", "color"], "English", "lexicon"⟩),
   ("da vinci", ⟨"from Vinci (place)", ["vinci", "place"], "Italian", "lexicon"⟩)]

/-- Occupational-variant table `OCC_VAR` (lines 101-108); the duplicated
dict key `"backer"` collapses to a single entry, as in a Python dict. -/
def OCC_VAR : List (String × String) :=
  [("schmidt", "smith"), ("schmitt", "smith"), ("schmid", "smith"), ("schmied", "smith"),
   ("muller", "miller"), ("mueller", "miller"), ("miller", "miller"),
   ("backer", "baker"), ("baecker", "baker"), ("backmann", "baker"),
   ("fischer", "fisher"), ("schneider", "tailor"),
   ("zimmermann", "carpenter"), ("zimmerman", "carpenter"),
   ("bauer", "farmer")]

/-- Locative prefixes `LOC_PREFIXES` (line 110). -/
def LOC_PREFIXES : List String := ["von", "van", "de", "da", "di"]

/-- ASCII uppercase of one character (used only for gloss text). -/
def asciiUpper (c : Char) : Char :=
  if h : 97 ≤ c.toNat ∧ c.toNat ≤ 122 then
    Char.ofNatAux (c.toNat - 32) (Or.inl (by omega))
  else c

/-- Python `str.title()` on the (already lowercase) cleaned tokens:
uppercase each letter that follows a non-letter, lowercase the rest. -/
def titleAux : Bool → List Char → List Char
  | _, [] => []
  | prev, c :: rest =>
    let alpha := (65 ≤ c.toNat && c.toNat ≤ 90) || (97 ≤ c.toNat && c.toNat ≤ 122)
    let c2 := if alpha then (if prev then pyLowerChar c else asciiUpper c) else c
    c2 :: titleAux alpha rest

/-- Python `str.title()`. -/
def pyTitle (s : String) : String :=
  List.asString (titleAux false s.data)

/-- Join strings with a separator (Python `sep.join(xs)`). -/
def joinSep (sep : String) : List String → String
  | [] => ""
  | [x] => x
  | x :: xs => x ++ sep ++ joinSep sep xs

/-- The `gn` binding of `derive` (line 119):
`gn = gk or (fk.split()[0] if fk else "")`. -/
def gnOf (full given : String) : String :=
  let gk := clean given
  if gk ≠ "" then gk
  else
    let fk := clean full
    if fk ≠ "" then (pySplit fk).headD "" else ""

/-- Outcome of one rule of `derive`: roots added (as a list of distinct
candidates; `derive` accumulates them into a set), gloss fragments added,
note tags added. -/
abbrev RuleOut := List String × List String × List String

/-- Rule 1 of `derive` (lines 122-123): `GIVEN` lexicon lookup on `gn`. -/
def rule1 (gn : String) : RuleOut :=
  match GIVEN.lookup gn with
  | some e => (e.roots, [e.meaning], [e.src])
  | none => ([], [], [])

/-- Rule 2 of `derive` (lines 126-130): locative prefix heuristic. -/
def rule2 (fk : String) : RuleOut :=
  let ftoks := pySplit fk
  if ftoks ≠ [] ∧ ftoks.headD "" ∈ LOC_PREFIXES ∧ 2 ≤ ftoks.length then
    (["place", ftoks.getLastD ""],
     ["from " ++ pyTitle (ftoks.getLastD "")], ["heuristic"])
  else ([], [], [])

/-- Rule 3 of `derive` (lines 133-138): `SURNAME` lexicon on the whole
surname phrase, else on its last token. -/
def rule3 (fk sk : String) : RuleOut :=
  let ftoks := pySplit fk
  let s_try := if sk ≠ "" then sk
    else if fk ≠ "" ∧ 1 < ftoks.length then joinSep " " ftoks.tail else ""
  let s_last := if s_try ≠ "" then (pySplit s_try).getLastD "" else ""
  match SURNAME.lookup s_try with
  | some e => (e.roots, [e.meaning], [e.src])
  | none =>
    match SURNAME.lookup s_last with
    | some e => (e.roots, [e.meaning], [e.src])
    | none => ([], [], [])

/-- Rule 4 of `derive` (lines 141-149): occupational variants. -/
def rule4 (sk : String) : RuleOut :=
  match OCC_VAR.lookup sk with
  | some occ =>
    (match occ with
     | "miller" => (["mill", "grain"], ["miller"], ["heuristic"])
     | "baker" => (["bake", "bread", "oven"], ["baker"], ["heuristic"])
     | "fisher" => (["fish", "river"], ["fisher"], ["heuristic"])
     | "tailor" => (["tailor", "cut", "cloth"], ["tailor"], ["heuristic"])
     | "carpenter" => (["carpenter", "wood"], ["carpenter"], ["heuristic"])
     | "smith" => (["smith", "metal", "forge"], ["smith"], ["heuristic"])
     | "farmer" => (["farmer", "field", "earth"], ["farmer"], ["heuristic"])
     | _ => ([], [], ["heuristic"]))
  | none => ([], [], [])

/-- Rule 5 of `derive` (lines 152-154): compound split of the surname on
`re.findall(r"[a-z]+", sk)`. -/
def rule5 (sk : String) : RuleOut :=
  let comp := (wordsAux (fun c => !(97 ≤ c.toNat && c.toNat ≤ 122)) sk.data []).map
    List.asString
  if 2 ≤ comp.length then (comp, [], ["compound"]) else ([], [], [])

/-- All root candidates accumulated by `derive` (lines 112-158),
including the rule-6 fallback
`roots.update(toks(gn)); roots.update(toks(sk))`; the set `roots` itself
is this list up to deduplication. -/
def deriveRootsList (full given sur : String) : List String :=
  let fk := clean full
  let sk := clean sur
  let gn := gnOf full given
  (rule1 gn).1 ++ (rule2 fk).1 ++ (rule3 fk sk).1 ++ (rule4 sk).1 ++ (rule5 sk).1 ++
    toks gn ++ toks sk

/-- Sorted distinct root list returned by `derive` (line 162,
`list(sorted(roots))`). -/
def deriveSortedRoots (full given sur : String) : List String :=
  sortAsc (firstDedup (deriveRootsList full given sur))

/-- Gloss string returned by `derive` (line 160, `"; ".join(parts)`). -/
def deriveGloss (full given sur : String) : String :=
  let fk := clean full
  let sk := clean sur
  let gn := gnOf full given
  joinSep "; " ((rule1 gn).2.1 ++ (rule2 fk).2.1 ++ (rule3 fk sk).2.1 ++
    (rule4 sk).2.1 ++ (rule5 sk).2.1)

/-- Source tag returned by `derive` (line 161,
`" + ".join(sorted(set(notes))) if notes else "heuristic"`). -/
def deriveSrc (full given sur : String) : String :=
  let fk := clean full
  let sk := clean sur
  let gn := gnOf full given
  let notes := (rule1 gn).2.2 ++ (rule2 fk).2.2 ++ (rule3 fk sk).2.2 ++
    (rule4 sk).2.2 ++ (rule5 sk).2.2
  if notes.isEmpty then "heuristic"
  else joinSep " + " (sortAsc (firstDedup notes))

/-- `derive(full, given, sur)` (lines 112-162): sorted list of the
distinct roots, gloss, source tag. -/
def derive (full given sur : String) : List String × String × String :=
  (deriveSortedRoots full given sur, deriveGloss full given sur,
    deriveSrc full given sur)

/-- Per-record step of the enricher's `main` loop (lines 168-183): skip
(`continue`) iff all three raw name fields are empty; otherwise `derive`
runs and `name_roots` plus `etymology_source` are unconditionally
written. -/
def enrichOut (full given sur : String) : Option (List String × String) :=
  if full = "" ∧ given = "" ∧ sur = "" then none
  else some ((derive full given sur).1, (derive full given sur).2.2)

end Enrich

/-! ## Etymology-to-profession aligner (`score_etymology_to_profession.py`) -/

/-- Static keyword table `KEYWORDS` (lines 42-48). -/
def KEYWORDS : List (String × Finset String) :=
  [("engineer", {"build", "make", "forge", "device", "engine", "machine", "metal",
                 "smith", "carpenter", "adze", "wood", "craft"}),
   ("artist", {"art", "paint", "color", "design", "draw", "create", "sculpt",
               "craft", "lace"}),
   ("mathematician", {"number", "count", "measure", "logic", "calc", "think"}),
   ("baker", {"bread", "bake", "oven", "grain", "loaf", "flour"}),
   ("agriculture", {"field", "farm", "earth", "harvest", "plough", "grain",
                    "vine", "vinci"})]

/-- Python `str.lower` on a whole string (`target.lower()`, line 56). -/
def lowerStr (s : String) : String :=
  List.asString (s.data.map pyLowerChar)

/-- The keyword set used for a target label:
`KEYWORDS.get(target.lower(), set())` (line 56). -/
def kwOf (target : String) : Finset String :=
  (KEYWORDS.lookup (lowerStr target)).getD ∅

/-- `score_alignment(roots, target)` (lines 55-60): returns `(score,
hits)`; `(0.0, set())` on an empty root set, otherwise
`len(hits) / max(1, len(roots))`. -/
def score_alignment (roots : Finset String) (target : String) : ℚ × Finset String :=
  let kw := kwOf target
  if roots = ∅ then (0, ∅)
  else
    let hits := roots.filter (· ∈ kw)
    ((hits.card : ℚ) / (max 1 roots.card : ℕ), hits)

/-- `tier(score)` (lines 62-66). -/
def tier (s : ℚ) : String :=
  if 66/100 ≤ s then "Strong"
  else if 33/100 ≤ s then "Medium"
  else if 0 < s then "Weak"
  else "None"

example : Enrich.clean "Jörg Müller!" = "jorg muller" := by decide
example : Enrich.toks "Jörg" = ["jorg"] := by decide
example : (Enrich.derive "!!!" "" "").1 = [] := by decide
example : (Enrich.derive "Nikola Tesla" "" "").1 =
    ["adze", "carpenter", "laos", "nike", "nikola"] := by decide
example : (score_alignment {"smith", "metal"} "Engineer").1 = 1 := by
  have h1 : (({"smith", "metal"} : Finset String).filter (· ∈ kwOf "Engineer")).card = 2 := by
    decide
  have h2 : ({"smith", "metal"} : Finset String).card = 2 := by decide
  simp only [score_alignment, if_neg (by decide : ¬ ({"smith", "metal"} : Finset String) = ∅),
    h1, h2]
  norm_num
example : tier (1/2) = "Medium" := by norm_num [tier]

/-! ## Properties of the aligner (claims C3 and C6) -/

lemma score_alignment_empty (target : String) : score_alignment ∅ target = (0, ∅) := by
  simp [score_alignment]

lemma score_alignment_of_ne_empty (roots : Finset String) (target : String)
    (h : roots ≠ ∅) :
    score_alignment roots target =
      (((roots ∩ kwOf target).card : ℚ) / roots.card, roots ∩ kwOf target) := by
  have hpos : 0 < roots.card :=
    Finset.card_pos.mpr (Finset.nonempty_iff_ne_empty.mpr h)
  simp only [score_alignment, h, if_false, Finset.filter_mem_eq_inter]
  rw [Nat.max_eq_right hpos]

lemma score_alignment_nonneg (roots : Finset String) (target : String) :
    0 ≤ (score_alignment roots target).1 := by
  by_cases h : roots = ∅
  · subst h; rw [score_alignment_empty]
  · rw [score_alignment_of_ne_empty roots target h]
    exact div_nonneg (by positivity) (by positivity)

lemma score_alignment_le_one (roots : Finset String) (target : String) :
    (score_alignment roots target).1 ≤ 1 := by
  by_cases h : roots = ∅
  · subst h; rw [score_alignment_empty]; norm_num
  · rw [score_alignment_of_ne_empty roots target h]
    have hpos : 0 < roots.card :=
      Finset.card_pos.mpr (Finset.nonempty_iff_ne_empty.mpr h)
    have hle : (roots ∩ kwOf target).card ≤ roots.card :=
      Finset.card_le_card (Finset.inter_subset_left)
    rw [div_le_one (by exact_mod_cast hpos)]
    exact_mod_cast hle

lemma kwOf_of_lookup_none (target : String)
    (h : KEYWORDS.lookup (lowerStr target) = none) : kwOf target = ∅ := by
  simp [kwOf, h]

lemma score_alignment_unknown (roots : Finset String) (target : String)
    (h : KEYWORDS.lookup (lowerStr target) = none) :
    (score_alignment roots target).1 = 0 := by
  by_cases he : roots = ∅
  · subst he; rw [score_alignment_empty]
  · rw [score_alignment_of_ne_empty roots target he, kwOf_of_lookup_none target h]
    simp

lemma tier_iff (s : ℚ) (h0 : 0 ≤ s) :
    (tier s = "Strong" ↔ 66/100 ≤ s) ∧
    (tier s = "Medium" ↔ 33/100 ≤ s ∧ s < 66/100) ∧
    (tier s = "Weak" ↔ 0 < s ∧ s < 33/100) ∧
    (tier s = "None" ↔ s = 0) := by
  unfold tier
  by_cases h1 : (66 : ℚ)/100 ≤ s
  · rw [if_pos h1]
    refine ⟨by simp [h1], ?_, ?_, ?_⟩
    · simp only [show ("Strong" : String) ≠ "Medium" from by decide, false_iff]
      rintro ⟨-, hlt⟩; exact absurd h1 (not_le.mpr hlt)
    · simp only [show ("Strong" : String) ≠ "Weak" from by decide, false_iff]
      rintro ⟨-, hlt⟩; linarith
    · simp only [show ("Strong" : String) ≠ "None" from by decide, false_iff]
      rintro rfl; linarith
  · rw [if_neg h1]
    by_cases h2 : (33 : ℚ)/100 ≤ s
    · rw [if_pos h2]
      refine ⟨?_, by simp [h2, not_le.mp h1], ?_, ?_⟩
      · simp only [show ("Medium" : String) ≠ "Strong" from by decide, false_iff]; exact h1
      · simp only [show ("Medium" : String) ≠ "Weak" from by decide, false_iff]
        rintro ⟨-, hlt⟩; exact absurd h2 (not_le.mpr hlt)
      · simp only [show ("Medium" : String) ≠ "None" from by decide, false_iff]
        rintro rfl; linarith
    · rw [if_neg h2]
      by_cases h3 : 0 < s
      · rw [if_pos h3]
        refine ⟨?_, ?_, by simp [h3, not_le.mp h2], ?_⟩
        · simp only [show ("Weak" : String) ≠ "Strong" from by decide, false_iff]; exact h1
        · simp only [show ("Weak" : String) ≠ "Medium" from by decide, false_iff]
          rintro ⟨hle, -⟩; exact h2 hle
        · simp only [show ("Weak" : String) ≠ "None" from by decide, false_iff]
          rintro rfl; exact lt_irrefl 0 h3
      · rw [if_neg h3]
        have hz : s = 0 := le_antisymm (not_lt.mp h3) h0
        refine ⟨?_, ?_, ?_, by simp [hz]⟩
        · simp only [show ("None" : String) ≠ "Strong" from by decide, false_iff]; exact h1
        · simp only [show ("None" : String) ≠ "Medium" from by decide, false_iff]
          rintro ⟨hle, -⟩; exact h2 hle
        · simp only [show ("None" : String) ≠ "Weak" from by decide, false_iff]
          rintro ⟨hlt, -⟩; exact h3 hlt

/-- Claim C3: the alignment score equals `|roots ∩ keywords(target)| / |roots|`,
lies in `[0,1]`, is `0` exactly on an empty root set or a label missing
from the keyword table (which also errors nowhere and lands in tier
"None"), and the four tiers partition the range by the documented
thresholds. -/
theorem C3_alignment_score_and_tiers (roots : Finset String) (target : String) :
    0 ≤ (score_alignment roots target).1 ∧
    (score_alignment roots target).1 ≤ 1 ∧
    (roots ≠ ∅ → (score_alignment roots target).1 =
      ((roots ∩ kwOf target).card : ℚ) / roots.card) ∧
    (roots = ∅ → (score_alignment roots target).1 = 0) ∧
    (KEYWORDS.lookup (lowerStr target) = none →
      (score_alignment roots target).1 = 0 ∧
      tier (score_alignment roots target).1 = "None") ∧
    (tier (score_alignment roots target).1 = "Strong" ↔
      66/100 ≤ (score_alignment roots target).1) ∧
    (tier (score_alignment roots target).1 = "Medium" ↔
      33/100 ≤ (score_alignment roots target).1 ∧
        (score_alignment roots target).1 < 66/100) ∧
    (tier (score_alignment roots target).1 = "Weak" ↔
      0 < (score_alignment roots target).1 ∧
        (score_alignment roots target).1 < 33/100) ∧
    (tier (score_alignment roots target).1 = "None" ↔
      (score_alignment roots target).1 = 0) := by
  obtain ⟨t1, t2, t3, t4⟩ :=
    tier_iff (score_alignment roots target).1 (score_alignment_nonneg roots target)
  refine ⟨score_alignment_nonneg roots target, score_alignment_le_one roots target,
    ?_, ?_, ?_, t1, t2, t3, t4⟩
  · intro h
    rw [score_alignment_of_ne_empty roots target h]
  · rintro rfl; rw [score_alignment_empty]
  · intro h
    refine ⟨score_alignment_unknown roots target h, ?_⟩
    rw [t4]; exact score_alignment_unknown roots target h

/-- Claim C3 witness: the theorem instantiated at a concrete root set and
target, with the conditional conjuncts discharged. -/
theorem C3_witness :
    (score_alignment {"smith", "oven"} "baker").1 =
      ((({"smith", "oven"} : Finset String) ∩ kwOf "baker").card : ℚ) /
        ({"smith", "oven"} : Finset String).card ∧
    (score_alignment ∅ "baker").1 = 0 ∧
    (score_alignment {"smith"} "nosuchlabel").1 = 0 := by
  refine ⟨(C3_alignment_score_and_tiers {"smith", "oven"} "baker").2.2.1 (by decide),
    (C3_alignment_score_and_tiers ∅ "baker").2.2.2.1 rfl,
    ((C3_alignment_score_and_tiers {"smith"} "nosuchlabel").2.2.2.2.1 (by decide)).1⟩

/-- Claim C6 counterexample: the keyword lookup is not case-sensitive.
The label "Engineer" is character-for-character equal to no key of the
table, yet its alignment score against the root set containing "smith" is
`1`, not `0`: the code lowercases the label before the lookup. -/
theorem C6_counterexample :
    ("Engineer" ∉ KEYWORDS.map Prod.fst) ∧
    (score_alignment {"smith"} "Engineer").1 = 1 := by
  refine ⟨by decide, ?_⟩
  rw [score_alignment_of_ne_empty {"smith"} "Engineer" (by decide)]
  have h1 : (({"smith"} : Finset String) ∩ kwOf "Engineer").card = 1 := by decide
  have h2 : ({"smith"} : Finset String).card = 1 := by decide
  simp only [h1, h2]
  norm_num

/-- Claim C6 as amended: the static keyword table is consulted by exact
match on the lowercased target label, so the lookup is case-insensitive —
two labels with the same lowercase form score identically, and a label
whose lowercase form is not a key is unknown and scores `0`. -/
theorem C6_amended_case_insensitive_lookup (roots : Finset String) (t1 t2 : String) :
    (lowerStr t1 = lowerStr t2 → score_alignment roots t1 = score_alignment roots t2) ∧
    (KEYWORDS.lookup (lowerStr t1) = none → (score_alignment roots t1).1 = 0) := by
  constructor
  · intro h
    have : kwOf t1 = kwOf t2 := by rw [kwOf, kwOf, h]
    simp only [score_alignment, this]
  · exact score_alignment_unknown roots t1

/-- Claim C6 witness: the amended theorem applied at concrete labels
differing only in case, and at a concretely unknown label. -/
theorem C6_witness :
    score_alignment {"smith"} "ENGINEER" = score_alignment {"smith"} "engineer" ∧
    (score_alignment {"smith"} "blacksmith").1 = 0 := by
  exact ⟨(C6_amended_case_insensitive_lookup {"smith"} "ENGINEER" "engineer").1 (by decide),
    (C6_amended_case_insensitive_lookup {"smith"} "blacksmith" "x").2 (by decide)⟩

/-! ## List helper lemmas (dedup and sorting) -/

lemma mem_insertKey {l : List String} {k a : String} :
    a ∈ insertKey l k ↔ a ∈ l ∨ a = k := by
  unfold insertKey
  by_cases h : k ∈ l
  · rw [if_pos h]
    constructor
    · exact Or.inl
    · rintro (ha | rfl)
      · exact ha
      · exact h
  · rw [if_neg h]
    simp

lemma mem_foldl_insertKey (l : List String) :
    ∀ (acc : List String) (a : String),
      a ∈ l.foldl insertKey acc ↔ a ∈ acc ∨ a ∈ l := by
  induction l with
  | nil => simp
  | cons x xs ih =>
    intro acc a
    rw [List.foldl_cons, ih, mem_insertKey]
    constructor
    · rintro ((h | rfl) | h)
      · exact Or.inl h
      · exact Or.inr (List.mem_cons_self _ _)
      · exact Or.inr (List.mem_cons_of_mem _ h)
    · rintro (h | h)
      · exact Or.inl (Or.inl h)
      · rcases List.mem_cons.mp h with rfl | h
        · exact Or.inl (Or.inr rfl)
        · exact Or.inr h

lemma mem_firstDedup {l : List String} {a : String} :
    a ∈ firstDedup l ↔ a ∈ l := by
  rw [firstDedup, mem_foldl_insertKey]
  simp

lemma firstDedup_eq_nil_iff {l : List String} : firstDedup l = [] ↔ l = [] := by
  constructor
  · intro h
    cases l with
    | nil => rfl
    | cons x xs =>
      exact absurd (mem_firstDedup.mpr (List.mem_cons_self x xs))
        (by rw [h]; exact List.not_mem_nil x)
  · rintro rfl; rfl

lemma insertKey_nodup {l : List String} (k : String) (h : l.Nodup) :
    (insertKey l k).Nodup := by
  unfold insertKey
  by_cases hk : k ∈ l
  · rwa [if_pos hk]
  · rw [if_neg hk]
    exact List.Nodup.append h (List.nodup_singleton k) (by simpa using hk)

lemma foldl_insertKey_nodup (l : List String) :
    ∀ acc : List String, acc.Nodup → (l.foldl insertKey acc).Nodup := by
  induction l with
  | nil => intro acc h; exact h
  | cons x xs ih =>
    intro acc h
    exact ih _ (insertKey_nodup x h)

lemma firstDedup_nodup (l : List String) : (firstDedup l).Nodup :=
  foldl_insertKey_nodup l [] List.nodup_nil

lemma insertAsc_perm (x : String) (l : List String) :
    (insertAsc x l).Perm (x :: l) := by
  induction l with
  | nil => exact List.Perm.refl _
  | cons y ys ih =>
    unfold insertAsc
    by_cases h : strLt y x
    · rw [if_pos h]
      exact (ih.cons y).trans (List.Perm.swap x y ys)
    · rw [if_neg h]

lemma sortAsc_perm (l : List String) : (sortAsc l).Perm l := by
  induction l with
  | nil => exact List.Perm.refl _
  | cons x xs ih =>
    exact (insertAsc_perm x (sortAsc xs)).trans (ih.cons x)

lemma mem_sortAsc {l : List String} {a : String} : a ∈ sortAsc l ↔ a ∈ l :=
  (sortAsc_perm l).mem_iff

lemma sortAsc_eq_nil_iff {l : List String} : sortAsc l = [] ↔ l = [] := by
  constructor
  · intro h
    cases l with
    | nil => rfl
    | cons x xs =>
      exact absurd (mem_sortAsc.mpr (List.mem_cons_self x xs))
        (by rw [h]; exact List.not_mem_nil x)
  · rintro rfl; rfl

/-! ## Properties of the enricher (claims C5 and C9) -/

lemma derive_fst (full given sur : String) :
    (Enrich.derive full given sur).1 =
      sortAsc (firstDedup (Enrich.deriveRootsList full given sur)) := by
  simp only [Enrich.derive, Enrich.deriveSortedRoots]

/-- Claim C5 counterexample: the full name `"!!!"` is non-empty name
text, so the claim asserts a non-empty root list; but every rule,
including the fallback, comes back empty (the text cleans away entirely),
the derived root list is `[]`, and the enricher still emits output for
the record. -/
theorem C5_counterexample :
    ("!!!" : String) ≠ "" ∧
    (Enrich.derive "!!!" "" "").1 = [] ∧
    Enrich.enrichOut "!!!" "" "" = some ([], "heuristic") := by
  refine ⟨by decide, by decide, by decide⟩

/-- Claim C5 as amended: if the full, given and surname fields are all
empty the enricher produces no output (the caller skips the record);
otherwise the root list contains the fallback word-tokens of the cleaned
given-or-first name and of the cleaned surname, and is therefore
non-empty whenever at least one of those token lists is non-empty — but
it can be empty when all the name text cleans away (for example
all-punctuation names). -/
theorem C5_amended_roots_nonempty (full given sur : String) :
    (full = "" ∧ given = "" ∧ sur = "" → Enrich.enrichOut full given sur = none) ∧
    (∀ a, a ∈ Enrich.toks (Enrich.gnOf full given) ∨ a ∈ Enrich.toks (Enrich.clean sur) →
      a ∈ (Enrich.derive full given sur).1) ∧
    (Enrich.toks (Enrich.gnOf full given) ≠ [] ∨ Enrich.toks (Enrich.clean sur) ≠ [] →
      (Enrich.derive full given sur).1 ≠ []) := by
  have hmem : ∀ a, a ∈ Enrich.toks (Enrich.gnOf full given) ∨
      a ∈ Enrich.toks (Enrich.clean sur) →
      a ∈ (Enrich.derive full given sur).1 := by
    intro a ha
    rw [derive_fst, mem_sortAsc, mem_firstDedup]
    unfold Enrich.deriveRootsList
    rcases ha with h | h
    · simp [h]
    · simp [h]
  refine ⟨?_, hmem, ?_⟩
  · rintro ⟨h1, h2, h3⟩
    simp [Enrich.enrichOut, h1, h2, h3]
  · intro h
    rcases h with h | h
    · cases htoks : Enrich.toks (Enrich.gnOf full given) with
      | nil => exact absurd htoks h
      | cons a as =>
        exact List.ne_nil_of_mem (hmem a (Or.inl (by rw [htoks]; exact List.mem_cons_self a as)))
    · cases htoks : Enrich.toks (Enrich.clean sur) with
      | nil => exact absurd htoks h
      | cons a as =>
        exact List.ne_nil_of_mem (hmem a (Or.inr (by rw [htoks]; exact List.mem_cons_self a as)))

/-- Claim C5 witness: the amended theorem applied at concrete records:
the all-empty record is skipped, and a record with real name text has a
non-empty root list. -/
theorem C5_witness :
    Enrich.enrichOut "" "" "" = none ∧
    (Enrich.derive "Ada Lovelace" "" "").1 ≠ [] := by
  exact ⟨(C5_amended_roots_nonempty "" "" "").1 ⟨rfl, rfl, rfl⟩,
    (C5_amended_roots_nonempty "Ada Lovelace" "" "").2.2 (Or.inl (by decide))⟩

/-- Claim C9 counterexample: an all-punctuation full name yields an empty
token set, and the analyzer does skip it, but the enricher does not: the
field is truthy, so the record is processed and `name_roots` (an empty
list) and `etymology_source` are written back. -/
theorem C9_counterexample :
    name_tokens_list "!!!" "" "" = [] ∧
    Enrich.enrichOut "!!!" "" "" = some ([], "heuristic") := by
  exact ⟨by decide, by decide⟩

/-- Claim C9 as amended: a record whose token set is empty is skipped by
the analyzer's write-back loop (nothing is scored or written, and nothing
is raised — both loops are total); the enricher, however, skips exactly
the records whose three raw name fields are all empty strings, and for
any other record — including blank or all-punctuation names — it writes
`name_roots` (possibly the empty list) and `etymology_source`. -/
theorem C9_amended_skip_behavior (full given sur : String)
    (pmi : String → String → Option ℝ) (clusters : List String) :
    (name_tokens_list full given sur = [] →
      analyzeRecordOut full given sur pmi clusters = none) ∧
    (Enrich.enrichOut full given sur = none ↔ full = "" ∧ given = "" ∧ sur = "") := by
  constructor
  · intro h
    simp [analyzeRecordOut, h]
  · unfold Enrich.enrichOut
    by_cases h : full = "" ∧ given = "" ∧ sur = ""
    · simp [h]
    · simp [h]

/-- Claim C9 witness: the amended theorem applied at an all-punctuation
record (analyzer side) and at the all-empty record (enricher side). -/
theorem C9_witness :
    analyzeRecordOut "!!!" "" "" (fun _ _ => none) [] = none ∧
    (Enrich.enrichOut "" "" "" = none ↔ ("" : String) = "" ∧ ("" : String) = "" ∧ ("" : String) = "") := by
  exact ⟨(C9_amended_skip_behavior "!!!" "" "" (fun _ _ => none) []).1 (by decide),
    (C9_amended_skip_behavior "" "" "" (fun _ _ => none) []).2⟩

/-! ## Sorting lemmas for the per-record scorer -/

section SortDesc

variable {α : Type} [LinearOrderedField α]

lemma insertDesc_perm (x : String × α) (l : List (String × α)) :
    (insertDesc x l).Perm (x :: l) := by
  induction l with
  | nil => exact List.Perm.refl _
  | cons y ys ih =>
    unfold insertDesc
    by_cases h : y.2 ≤ x.2
    · rw [if_pos h]
    · rw [if_neg h]
      exact (ih.cons y).trans (List.Perm.swap x y ys)

lemma sortDesc_perm (l : List (String × α)) : (sortDesc l).Perm l := by
  induction l with
  | nil => exact List.Perm.refl _
  | cons x xs ih =>
    exact (insertDesc_perm x (sortDesc xs)).trans (ih.cons x)

lemma mem_insertDesc {x z : String × α} {l : List (String × α)} :
    z ∈ insertDesc x l ↔ z = x ∨ z ∈ l := by
  rw [(insertDesc_perm x l).mem_iff, List.mem_cons]

lemma insertDesc_pairwise {x : String × α} {l : List (String × α)}
    (h : l.Pairwise (fun a b => b.2 ≤ a.2)) :
    (insertDesc x l).Pairwise (fun a b => b.2 ≤ a.2) := by
  induction l with
  | nil => simp [insertDesc]
  | cons y ys ih =>
    rw [List.pairwise_cons] at h
    unfold insertDesc
    by_cases hxy : y.2 ≤ x.2
    · rw [if_pos hxy]
      refine List.Pairwise.cons ?_ (List.Pairwise.cons h.1 h.2)
      intro z hz
      rcases List.mem_cons.mp hz with rfl | hz
      · exact hxy
      · exact le_trans (h.1 z hz) hxy
    · rw [if_neg hxy]
      refine List.Pairwise.cons ?_ (ih h.2)
      intro z hz
      rcases mem_insertDesc.mp hz with rfl | hz
      · exact le_of_lt (not_le.mp hxy)
      · exact h.1 z hz

lemma sortDesc_pairwise (l : List (String × α)) :
    (sortDesc l).Pairwise (fun a b => b.2 ≤ a.2) := by
  induction l with
  | nil => simp [sortDesc]
  | cons x xs ih => exact insertDesc_pairwise ih

lemma sortDesc_eq_nil_iff {l : List (String × α)} : sortDesc l = [] ↔ l = [] := by
  constructor
  · intro h
    have := (sortDesc_perm l).length_eq
    rw [h] at this
    exact List.eq_nil_of_length_eq_zero this.symm
  · rintro rfl; rfl

/-- Head of the stable descending sort of `D.map (fun c => (c, f c))`:
it is the first element of `D` attaining the maximal value of `f`. -/
lemma sortDesc_map_head (f : String → α) (D : List String) (hD : D ≠ []) :
    ∃ bc D1 D2 tl, D = D1 ++ bc :: D2 ∧
      sortDesc (D.map (fun c => (c, f c))) = (bc, f bc) :: tl ∧
      (∀ c ∈ D1, f c < f bc) ∧ (∀ c ∈ D, f c ≤ f bc) := by
  induction D with
  | nil => exact absurd rfl hD
  | cons x xs ih =>
    cases hxs : xs with
    | nil =>
      refine ⟨x, [], [], [], rfl, ?_, by simp, by simp⟩
      subst hxs
      rfl
    | cons y ys =>
      obtain ⟨bc, D1, D2, tl, hsplit, hsort, hstrict, hbound⟩ := ih (by simp [hxs])
      rw [← hxs] at *
      have hstep : sortDesc ((x :: xs).map (fun c => (c, f c))) =
          insertDesc (x, f x) (sortDesc (xs.map (fun c => (c, f c)))) := rfl
      rw [hstep, hsort]
      unfold insertDesc
      by_cases hle : f bc ≤ f x
      · rw [if_pos hle]
        refine ⟨x, [], xs, (bc, f bc) :: tl, by simp, rfl, by simp, ?_⟩
        intro c hc
        rcases List.mem_cons.mp hc with rfl | hc
        · exact le_refl _
        · exact le_trans (hbound c hc) hle
      · rw [if_neg hle]
        refine ⟨bc, x :: D1, D2, insertDesc (x, f x) tl, by rw [hsplit]; rfl, rfl, ?_, ?_⟩
        · intro c hc
          rcases List.mem_cons.mp hc with rfl | hc
          · exact not_le.mp hle
          · exact hstrict c hc
        · intro c hc
          rcases List.mem_cons.mp hc with rfl | hc
          · exact le_of_lt (not_le.mp hle)
          · exact hbound c hc

end SortDesc

/-! ## Properties of the per-record scorer (claims C10, C2, C8) -/

lemma score_record_eq_none_iff {α : Type} [LinearOrderedField α] [DecidableEq α]
    (tokens : List String) (pmi : String → String → Option α)
    (clusters : List String) :
    score_record tokens pmi clusters = none ↔ clusters = [] := by
  cases h : sortDesc ((firstDedup clusters).map (fun c => (c, scoreSum tokens pmi c))) with
  | nil =>
    have hD : firstDedup clusters = [] :=
      List.map_eq_nil_iff.mp (sortDesc_eq_nil_iff.mp h)
    have hc : clusters = [] := firstDedup_eq_nil_iff.mp hD
    subst hc
    simp [score_record, firstDedup, sortDesc]
  | cons hd tl =>
    have hne : clusters ≠ [] := by
      rintro rfl
      simp [sortDesc, firstDedup] at h
    simp [score_record, h, hne]

/-- Claim C10: `score_record` indexes `ranked[0]`, which fails exactly
when the supplied label list is empty (modelled by `none`); the pipeline
guard `if N == 0 or not pmi: sys.exit(...)` fires whenever no labeled,
tokenizable example was learned, and when it does not fire the learned
label list is non-empty, so every scoring call returns a result. -/
theorem C10_scorer_totality_precondition :
    (∀ (tokens : List String) (pmi : String → String → Option ℝ)
        (clusters : List String),
      score_record tokens pmi clusters = none ↔ clusters = []) ∧
    (∀ rs : List Rec,
      ((learnData rs).N = 0 → mainAborts rs) ∧
      (¬ mainAborts rs → (learnData rs).clusterKeys ≠ [] ∧
        ∀ tokens : List String,
          (score_record tokens (learnedPmi rs) (learnData rs).clusterKeys).isSome)) := by
  refine ⟨fun tokens pmi clusters => score_record_eq_none_iff tokens pmi clusters,
    fun rs => ⟨fun h => Or.inl h, fun h => ?_⟩⟩
  rw [mainAborts, not_or] at h
  have hkeys : (learnData rs).clusterKeys ≠ [] := by
    intro hc
    apply h.2
    unfold pmiDictKeys
    by_cases ht : (learnData rs).tokenKeys = []
    · rw [if_pos ht]
    · rw [if_neg ht]; exact hc
  refine ⟨hkeys, fun tokens => ?_⟩
  rw [Option.isSome_iff_ne_none]
  intro hnone
  exact hkeys ((score_record_eq_none_iff _ _ _).mp hnone)

/-- Claim C10 witness: scoring with an empty label list fails, the
trivial dataset passes the guard, and scoring against its learned labels
succeeds. -/
theorem C10_witness :
    (score_record [] (fun _ _ => (none : Option ℝ)) [] = none ↔ ([] : List String) = []) ∧
    (learnData [⟨"abc", "", "", "trades"⟩]).clusterKeys ≠ [] := by
  exact ⟨(C10_scorer_totality_precondition.1 [] (fun _ _ => none) []),
    ((C10_scorer_totality_precondition.2 [⟨"abc", "", "", "trades"⟩]).2 (by decide)).1⟩

/-- Full characterization of a successful `score_record` call: the best
label, the gap as best-minus-second-best, and the returned scores dict. -/
lemma score_record_spec {α : Type} [LinearOrderedField α] [DecidableEq α]
    (tokens : List String) (pmi : String → String → Option α)
    (cl : List String) (hne : cl ≠ []) :
    ∃ bc second top,
      score_record tokens pmi cl =
        some (bc, scoreSum tokens pmi bc - second, top,
          (firstDedup cl).map (fun c => (c, scoreSum tokens pmi c))) ∧
      bc ∈ cl ∧
      (∀ c ∈ cl, scoreSum tokens pmi c ≤ scoreSum tokens pmi bc) ∧
      ((firstDedup cl).erase bc = [] → second = 0) ∧
      ((firstDedup cl).erase bc ≠ [] →
        (∃ c ∈ (firstDedup cl).erase bc, second = scoreSum tokens pmi c) ∧
        ∀ c ∈ (firstDedup cl).erase bc, scoreSum tokens pmi c ≤ second) := by
  have hDne : firstDedup cl ≠ [] := fun h => hne (firstDedup_eq_nil_iff.mp h)
  obtain ⟨bc, D1, D2, tl, hsplit, hsort, _, hbound⟩ :=
    sortDesc_map_head (scoreSum tokens pmi) (firstDedup cl) hDne
  have hnodup : (firstDedup cl).Nodup := firstDedup_nodup cl
  have hbc_notmem_D1 : bc ∉ D1 := by
    rw [hsplit] at hnodup
    obtain ⟨-, -, hdisj⟩ := List.nodup_append.mp hnodup
    intro hmem
    exact hdisj hmem (List.mem_cons_self _ _)
  have herase : (firstDedup cl).erase bc = D1 ++ D2 := by
    rw [hsplit, List.erase_append_right _ hbc_notmem_D1, List.erase_cons_head]
  have hbc_mem_D : bc ∈ firstDedup cl := by
    rw [hsplit]
    exact List.mem_append_right _ (List.mem_cons_self _ _)
  have hperm := sortDesc_perm ((firstDedup cl).map (fun c => (c, scoreSum tokens pmi c)))
  have hpair := sortDesc_pairwise ((firstDedup cl).map (fun c => (c, scoreSum tokens pmi c)))
  rw [hsort] at hperm hpair
  have hmid : (firstDedup cl).map (fun c => (c, scoreSum tokens pmi c)) =
      D1.map (fun c => (c, scoreSum tokens pmi c)) ++
        (bc, scoreSum tokens pmi bc) :: D2.map (fun c => (c, scoreSum tokens pmi c)) := by
    rw [hsplit, List.map_append, List.map_cons]
  have htl_perm : tl.Perm ((D1 ++ D2).map (fun c => (c, scoreSum tokens pmi c))) := by
    rw [List.map_append]
    refine List.Perm.cons_inv (a := (bc, scoreSum tokens pmi bc)) ?_
    rw [hmid] at hperm
    exact hperm.trans List.perm_middle
  cases htl : tl with
  | nil =>
    have hD1D2 : D1 ++ D2 = [] := by
      rw [htl] at htl_perm
      exact List.map_eq_nil_iff.mp htl_perm.symm.eq_nil
    have hrec : ∃ top, score_record tokens pmi cl =
        some (bc, scoreSum tokens pmi bc - 0, top,
          (firstDedup cl).map (fun c => (c, scoreSum tokens pmi c))) := by
      simp only [score_record, hsort, htl]
      exact ⟨_, rfl⟩
    obtain ⟨top, heq⟩ := hrec
    refine ⟨bc, 0, top, heq, mem_firstDedup.mp hbc_mem_D,
      fun c hc => hbound c (mem_firstDedup.mpr hc), fun _ => rfl, ?_⟩
    intro hcon
    rw [herase] at hcon
    exact absurd hD1D2 hcon
  | cons s tl2 =>
    rcases s with ⟨s1, s2⟩
    have hs_mem : (s1, s2) ∈ (D1 ++ D2).map (fun c => (c, scoreSum tokens pmi c)) := by
      rw [← htl_perm.mem_iff, htl]
      exact List.mem_cons_self _ _
    obtain ⟨cs, hcs_mem, hcs_eq⟩ := List.mem_map.mp hs_mem
    have hrec : ∃ top, score_record tokens pmi cl =
        some (bc, scoreSum tokens pmi bc - s2, top,
          (firstDedup cl).map (fun c => (c, scoreSum tokens pmi c))) := by
      simp only [score_record, hsort, htl]
      exact ⟨_, rfl⟩
    obtain ⟨top, heq⟩ := hrec
    refine ⟨bc, s2, top, heq, mem_firstDedup.mp hbc_mem_D,
      fun c hc => hbound c (mem_firstDedup.mpr hc), ?_,
      fun _ => ⟨⟨cs, by rw [herase]; exact hcs_mem, ?_⟩, ?_⟩⟩
    · intro hcon
      rw [herase] at hcon
      rw [hcon] at hcs_mem
      exact absurd hcs_mem (List.not_mem_nil cs)
    · exact (congrArg Prod.snd hcs_eq).symm
    · intro c hc
      rw [herase] at hc
      have hcmem : (c, scoreSum tokens pmi c) ∈ tl := by
        rw [htl_perm.mem_iff]
        exact List.mem_map.mpr ⟨c, hc, rfl⟩
      rw [htl] at hcmem
      rw [List.pairwise_cons] at hpair
      have hpair2 := htl ▸ hpair.2
      rcases List.mem_cons.mp hcmem with heq2 | hmem2
      · exact le_of_eq (congrArg Prod.snd heq2)
      · exact (List.pairwise_cons.mp hpair2).1 _ hmem2

/-- Claim C2: the scorer sums the table value (default `0` for entries
absent from the learned vocabulary) over the record's tokens for each
distinct known label; the returned gap is the best summed score minus
the second-best summed score (the maximum over the remaining labels),
and with a single known label the gap is that label's raw summed score. -/
theorem C2_gap_is_best_minus_second
    (tokens : List String) (clusters : List String) :
    (∀ (rs : List Rec) (c t : String), t ∉ (learnData rs).tokenKeys →
      dictGet (learnedPmi rs) c t = 0) ∧
    (∀ (α : Type) [LinearOrderedField α] [DecidableEq α]
        (pmi : String → String → Option α), clusters ≠ [] →
      ∃ bc second top,
        score_record tokens pmi clusters =
          some (bc, scoreSum tokens pmi bc - second, top,
            (firstDedup clusters).map (fun c => (c, scoreSum tokens pmi c))) ∧
        bc ∈ clusters ∧
        (∀ c ∈ clusters, scoreSum tokens pmi c ≤ scoreSum tokens pmi bc) ∧
        ((firstDedup clusters).erase bc = [] → second = 0) ∧
        ((firstDedup clusters).erase bc ≠ [] →
          (∃ c ∈ (firstDedup clusters).erase bc, second = scoreSum tokens pmi c) ∧
          ∀ c ∈ (firstDedup clusters).erase bc, scoreSum tokens pmi c ≤ second)) ∧
    (∀ (α : Type) [LinearOrderedField α] [DecidableEq α]
        (pmi : String → String → Option α) (c : String),
      ∃ top, score_record tokens pmi [c] =
        some (c, scoreSum tokens pmi c, top, [(c, scoreSum tokens pmi c)])) := by
  refine ⟨?_, fun α _ _ pmi hne => score_record_spec tokens pmi clusters hne, ?_⟩
  · intro rs c t ht
    unfold dictGet learnedPmi
    rw [if_neg (fun hand => ht hand.2)]
    rfl
  · intro α _ _ pmi c
    obtain ⟨bc, second, top, heq, hmem, _, hz, _⟩ :=
      score_record_spec tokens pmi [c] (by simp)
    have hbc : bc = c := by simpa using hmem
    subst hbc
    have hD : firstDedup [bc] = [bc] := rfl
    have hsec : second = 0 := hz (by rw [hD, List.erase_cons_head])
    subst hsec
    refine ⟨top, ?_⟩
    rw [heq, sub_zero, hD, List.map_singleton]

/-- Claim C2 witness: the theorem applied at a concrete token list and a
concrete two-label and one-label vocabulary. -/
theorem C2_witness :
    ∃ bc second top,
      score_record ["ab"] (fun _ _ => (none : Option ℚ)) ["x", "y"] =
        some (bc, scoreSum ["ab"] (fun _ _ => (none : Option ℚ)) bc - second, top,
          (firstDedup ["x", "y"]).map
            (fun c => (c, scoreSum ["ab"] (fun _ _ => (none : Option ℚ)) c))) ∧
      bc ∈ ["x", "y"] ∧
      (∀ c ∈ ["x", "y"], scoreSum ["ab"] (fun _ _ => (none : Option ℚ)) c ≤
        scoreSum ["ab"] (fun _ _ => (none : Option ℚ)) bc) ∧
      ((firstDedup ["x", "y"]).erase bc = [] → second = 0) ∧
      ((firstDedup ["x", "y"]).erase bc ≠ [] →
        (∃ c ∈ (firstDedup ["x", "y"]).erase bc,
          second = scoreSum ["ab"] (fun _ _ => (none : Option ℚ)) c) ∧
        ∀ c ∈ (firstDedup ["x", "y"]).erase bc,
          scoreSum ["ab"] (fun _ _ => (none : Option ℚ)) c ≤ second) :=
  (C2_gap_is_best_minus_second ["ab"] ["x", "y"]).2.1 ℚ
    (fun _ _ => none) (by decide)

/-- Claim C8 counterexample: on an exact tie the returned best label
follows the order of the supplied label list.  With the empty token list
every label scores `0`; the permuted lists `["a", "b"]` and `["b", "a"]`
make the scorer return different best labels, so the result is not
invariant under permutations of the known-label list. -/
theorem C8_counterexample :
    (["a", "b"] : List String).Perm ["b", "a"] ∧
    (score_record [] (fun _ _ => (none : Option ℚ)) ["a", "b"]).map (fun r => r.1) =
      some "a" ∧
    (score_record [] (fun _ _ => (none : Option ℚ)) ["b", "a"]).map (fun r => r.1) =
      some "b" := by
  refine ⟨by decide, ?_, ?_⟩ <;>
    simp [score_record, firstDedup, insertKey, scoreSum, dictGet, sortDesc, insertDesc]

/-- Claim C8 as amended: the tie-break is not a fixed deterministic rule
such as lexicographic order; instead the scorer deterministically returns
the first label, in the order of the supplied list (first occurrences),
whose summed score is maximal — `sorted(..., reverse=True)` is stable —
so permuting the label list can change the winner exactly on ties. -/
theorem C8_amended_first_maximal_label {α : Type} [LinearOrderedField α]
    [DecidableEq α] (tokens : List String) (pmi : String → String → Option α)
    (clusters : List String) (h : clusters ≠ []) :
    ∃ bc D1 D2 gap top slist,
      score_record tokens pmi clusters = some (bc, gap, top, slist) ∧
      firstDedup clusters = D1 ++ bc :: D2 ∧
      (∀ c ∈ D1, scoreSum tokens pmi c < scoreSum tokens pmi bc) ∧
      (∀ c ∈ firstDedup clusters, scoreSum tokens pmi c ≤ scoreSum tokens pmi bc) := by
  have hDne : firstDedup clusters ≠ [] := fun hc => h (firstDedup_eq_nil_iff.mp hc)
  obtain ⟨bc, D1, D2, tl, hsplit, hsort, hstrict, hbound⟩ :=
    sortDesc_map_head (scoreSum tokens pmi) (firstDedup clusters) hDne
  have hrec : ∃ gap top slist,
      score_record tokens pmi clusters = some (bc, gap, top, slist) := by
    cases htl : tl with
    | nil =>
      simp only [score_record, hsort, htl]
      exact ⟨_, _, _, rfl⟩
    | cons s tl2 =>
      rcases s with ⟨s1, s2⟩
      simp only [score_record, hsort, htl]
      exact ⟨_, _, _, rfl⟩
  obtain ⟨gap, top, slist, heq⟩ := hrec
  exact ⟨bc, D1, D2, gap, top, slist, heq, hsplit, hstrict, hbound⟩

/-- Claim C8 witness: the amended theorem applied at a concrete tied
instance. -/
theorem C8_witness :
    ∃ bc D1 D2 gap top slist,
      score_record [] (fun _ _ => (none : Option ℚ)) ["a", "b"] =
        some (bc, gap, top, slist) ∧
      firstDedup ["a", "b"] = D1 ++ bc :: D2 ∧
      (∀ c ∈ D1, scoreSum [] (fun _ _ => (none : Option ℚ)) c <
        scoreSum [] (fun _ _ => (none : Option ℚ)) bc) ∧
      (∀ c ∈ firstDedup ["a", "b"], scoreSum [] (fun _ _ => (none : Option ℚ)) c ≤
        scoreSum [] (fun _ _ => (none : Option ℚ)) bc) :=
  C8_amended_first_maximal_label [] (fun _ _ => none) ["a", "b"] (by decide)

/-! ## The learner's fold state equals the specification counts
(claims C1 and C4) -/

lemma foldl_learnStep_N (rs : List Rec) :
    ∀ st : PmiData, (rs.foldl learnStep st).N = st.N + rs.countP usable := by
  induction rs with
  | nil => simp
  | cons r rest ih =>
    intro st
    rw [List.foldl_cons, ih, List.countP_cons]
    unfold learnStep
    by_cases h : usable r
    · simp only [h, if_true]
      omega
    · simp only [h, if_false, Bool.false_eq_true]
      omega

lemma foldl_learnStep_cCount (rs : List Rec) (c : String) :
    ∀ st : PmiData, (rs.foldl learnStep st).cCount c =
      st.cCount c + rs.countP (fun r => usable r && (r.cluster == c)) := by
  induction rs with
  | nil => simp
  | cons r rest ih =>
    intro st
    rw [List.foldl_cons, ih, List.countP_cons]
    by_cases h : usable r
    · by_cases hc : c = r.cluster
      · simp [learnStep, h, hc]
        omega
      · simp [learnStep, h, hc, Ne.symm hc]
    · simp [learnStep, h]

lemma foldl_learnStep_tCount (rs : List Rec) (t : String) :
    ∀ st : PmiData, (rs.foldl learnStep st).tCount t =
      st.tCount t + rs.countP (fun r => usable r && decide (t ∈ tokensOf r)) := by
  induction rs with
  | nil => simp
  | cons r rest ih =>
    intro st
    rw [List.foldl_cons, ih, List.countP_cons]
    by_cases h : usable r
    · by_cases ht : t ∈ tokensOf r
      · simp [learnStep, h, ht]
        omega
      · simp [learnStep, h, ht]
    · simp [learnStep, h]

lemma foldl_learnStep_jCount (rs : List Rec) (c t : String) :
    ∀ st : PmiData, (rs.foldl learnStep st).jCount c t =
      st.jCount c t +
        rs.countP (fun r => usable r && decide (c = r.cluster ∧ t ∈ tokensOf r)) := by
  induction rs with
  | nil => simp
  | cons r rest ih =>
    intro st
    rw [List.foldl_cons, ih, List.countP_cons]
    by_cases h : usable r
    · by_cases hct : c = r.cluster ∧ t ∈ tokensOf r
      · simp [learnStep, h, hct, hct.1, hct.2]
        omega
      · rcases Decidable.not_and_iff_or_not.mp hct with hx | hx
        · by_cases ht : t ∈ tokensOf r
          · simp [learnStep, h, hct, hx, ht]
          · simp [learnStep, h, hct, hx, ht]
        · simp [learnStep, h, hct, hx]
    · simp [learnStep, h]

lemma foldl_learnStep_clusterKeys (rs : List Rec) :
    ∀ st : PmiData, (rs.foldl learnStep st).clusterKeys =
      List.foldl insertKey st.clusterKeys
        ((rs.filter usable).map (fun r => r.cluster)) := by
  induction rs with
  | nil => simp
  | cons r rest ih =>
    intro st
    rw [List.foldl_cons, ih]
    by_cases h : usable r
    · rw [List.filter_cons_of_pos h]
      simp [learnStep, h]
    · rw [List.filter_cons_of_neg h]
      simp [learnStep, h]

lemma foldl_learnStep_tokenKeys (rs : List Rec) :
    ∀ st : PmiData, (rs.foldl learnStep st).tokenKeys =
      List.foldl insertKey st.tokenKeys
        (((rs.filter usable).map tokListOf).flatten) := by
  induction rs with
  | nil => simp
  | cons r rest ih =>
    intro st
    rw [List.foldl_cons, ih]
    by_cases h : usable r
    · rw [List.filter_cons_of_pos h]
      simp [learnStep, h, List.foldl_append]
    · rw [List.filter_cons_of_neg h]
      simp [learnStep, h]

lemma foldl_insertKey_toFinset (l : List String) (acc : List String) :
    (List.foldl insertKey acc l).toFinset = acc.toFinset ∪ l.toFinset := by
  ext a
  simp [List.mem_toFinset, mem_foldl_insertKey]

lemma learnData_N (rs : List Rec) : (learnData rs).N = nEx rs := by
  rw [learnData, foldl_learnStep_N]
  simp [nEx, usableRecs, List.countP_eq_length_filter]

lemma learnData_cCount (rs : List Rec) (c : String) :
    (learnData rs).cCount c = labelCount rs c := by
  rw [learnData, foldl_learnStep_cCount]
  simp only [labelCount, usableRecs, List.countP_filter, Nat.zero_add]
  exact List.countP_congr (by
    intro r _
    by_cases h1 : usable r <;> simp [h1])

lemma learnData_tCount (rs : List Rec) (t : String) :
    (learnData rs).tCount t = tokCount rs t := by
  rw [learnData, foldl_learnStep_tCount]
  simp only [tokCount, usableRecs, List.countP_filter, Nat.zero_add]
  exact List.countP_congr (by
    intro r _
    by_cases h1 : usable r <;> simp [h1])

lemma learnData_jCount (rs : List Rec) (c t : String) :
    (learnData rs).jCount c t = coCount rs c t := by
  rw [learnData, foldl_learnStep_jCount]
  simp only [coCount, usableRecs, List.countP_filter, Nat.zero_add]
  refine List.countP_congr ?_
  intro r _
  simp only [Bool.and_eq_true, decide_eq_true_eq, beq_iff_eq]
  constructor
  · rintro ⟨hu, hcc, htt⟩
    exact ⟨⟨hcc.symm, htt⟩, hu⟩
  · rintro ⟨⟨hcc, htt⟩, hu⟩
    exact ⟨hu, hcc.symm, htt⟩

lemma learnData_clusterKeys_nodup (rs : List Rec) :
    (learnData rs).clusterKeys.Nodup := by
  rw [learnData, foldl_learnStep_clusterKeys]
  exact foldl_insertKey_nodup _ [] List.nodup_nil

lemma learnData_clusterKeys_toFinset (rs : List Rec) :
    (learnData rs).clusterKeys.toFinset = observedLabels rs := by
  rw [learnData, foldl_learnStep_clusterKeys, foldl_insertKey_toFinset]
  simp [observedLabels, usableRecs]

lemma learnData_clusterKeys_length (rs : List Rec) :
    (learnData rs).clusterKeys.length = (observedLabels rs).card := by
  rw [← learnData_clusterKeys_toFinset,
    List.toFinset_card_of_nodup (learnData_clusterKeys_nodup rs)]

lemma name_tokens_list_toFinset (full given sur : String) :
    (name_tokens_list full given sur).toFinset = name_tokens full given sur := by
  ext a
  simp only [name_tokens_list, name_tokens, List.mem_toFinset, mem_sortAsc,
    mem_firstDedup, List.mem_filter, List.mem_append, Finset.mem_filter,
    Finset.mem_union, decide_eq_true_eq]

lemma flatten_map_tokListOf_toFinset (l : List Rec) :
    ((l.map tokListOf).flatten).toFinset =
      l.foldr (fun r acc => tokensOf r ∪ acc) ∅ := by
  induction l with
  | nil => simp
  | cons r rest ih =>
    simp only [List.map_cons, List.flatten_cons, List.toFinset_append, ih,
      List.foldr_cons]
    rw [tokListOf, name_tokens_list_toFinset]
    rfl

lemma learnData_tokenKeys_nodup (rs : List Rec) :
    (learnData rs).tokenKeys.Nodup := by
  rw [learnData, foldl_learnStep_tokenKeys]
  exact foldl_insertKey_nodup _ [] List.nodup_nil

lemma learnData_tokenKeys_toFinset (rs : List Rec) :
    (learnData rs).tokenKeys.toFinset = observedVocab rs := by
  rw [learnData, foldl_learnStep_tokenKeys, foldl_insertKey_toFinset,
    flatten_map_tokListOf_toFinset]
  simp [observedVocab, usableRecs]

lemma learnData_tokenKeys_length (rs : List Rec) :
    (learnData rs).tokenKeys.length = (observedVocab rs).card := by
  rw [← learnData_tokenKeys_toFinset,
    List.toFinset_card_of_nodup (learnData_tokenKeys_nodup rs)]

/-- Claim C1: for a dataset with at least one tokenizable labeled
example, the learned association value for an observed label and an
observed token is `log2(P(c,t) / (P(c)·P(t)))` with the add-one smoothed
probabilities `P(c) = (count(c)+1)/(N+|labels|)`,
`P(t) = (count(t)+1)/(N+|tokens|)` and
`P(c,t) = (cocount(c,t)+1)/(N+|tokens|·|labels|)`, the counts being taken
over the tokenizable labeled examples. -/
theorem C1_pmi_value_formula (rs : List Rec) (h : 1 ≤ nEx rs) (c t : String)
    (hc : c ∈ observedLabels rs) (ht : t ∈ observedVocab rs) :
    pmiVal rs c t = Real.logb 2
      ((((coCount rs c t : ℝ) + 1) /
          ((nEx rs : ℝ) + (observedVocab rs).card * (observedLabels rs).card)) /
        ((((labelCount rs c : ℝ) + 1) / ((nEx rs : ℝ) + (observedLabels rs).card)) *
          (((tokCount rs t : ℝ) + 1) / ((nEx rs : ℝ) + (observedVocab rs).card)))) := by
  rw [pmiVal]
  congr 1
  rw [pmiArg, p_joint, p_cluster, p_token]
  simp only [learnData_N, learnData_cCount, learnData_tCount, learnData_jCount,
    learnData_clusterKeys_length, learnData_tokenKeys_length]
  push_cast
  ring

/-- Claim C1 witness: the theorem applied to the one-record dataset
`full_name = "abc"`, `cluster = "x"`, at its observed label and token. -/
theorem C1_witness :
    pmiVal [⟨"abc", "", "", "x"⟩] "x" "abc" = Real.logb 2
      ((((coCount [⟨"abc", "", "", "x"⟩] "x" "abc" : ℝ) + 1) /
          ((nEx [⟨"abc", "", "", "x"⟩] : ℝ) +
            (observedVocab [⟨"abc", "", "", "x"⟩]).card *
              (observedLabels [⟨"abc", "", "", "x"⟩]).card)) /
        ((((labelCount [⟨"abc", "", "", "x"⟩] "x" : ℝ) + 1) /
            ((nEx [⟨"abc", "", "", "x"⟩] : ℝ) +
              (observedLabels [⟨"abc", "", "", "x"⟩]).card)) *
          (((tokCount [⟨"abc", "", "", "x"⟩] "abc" : ℝ) + 1) /
            ((nEx [⟨"abc", "", "", "x"⟩] : ℝ) +
              (observedVocab [⟨"abc", "", "", "x"⟩]).card)))) :=
  C1_pmi_value_formula [⟨"abc", "", "", "x"⟩] (by decide) "x" "abc"
    (by decide) (by decide)

/-- Claim C4: with at least one tokenizable labeled example, every
smoothed probability entering the PMI logarithm is strictly positive for
every observed label and token — including pairs that never co-occur —
so the argument of the logarithm is strictly positive and the learned
value `logb 2` of it is a well-defined (finite, possibly negative) real
number, never a division by zero or a logarithm of zero. -/
theorem C4_pmi_argument_positive (rs : List Rec) (h : 1 ≤ nEx rs) (c t : String)
    (hc : c ∈ observedLabels rs) (ht : t ∈ observedVocab rs) :
    0 < p_joint rs c t ∧ 0 < p_cluster rs c ∧ 0 < p_token rs t ∧
    0 < pmiArg rs c t ∧ pmiVal rs c t = Real.logb 2 ((pmiArg rs c t : ℚ) : ℝ) := by
  have hN : (1 : ℚ) ≤ ((learnData rs).N : ℚ) := by
    rw [learnData_N]
    exact_mod_cast h
  have hNpos : (0 : ℚ) < ((learnData rs).N : ℚ) := lt_of_lt_of_le zero_lt_one hN
  have hj : 0 < p_joint rs c t := by
    rw [p_joint]
    refine div_pos (by positivity) ?_
    have : (0 : ℚ) ≤ (((learnData rs).tokenKeys.length *
        (learnData rs).clusterKeys.length : ℕ) : ℚ) := by positivity
    push_cast at this ⊢
    linarith
  have hcpos : 0 < p_cluster rs c := by
    rw [p_cluster]
    refine div_pos (by positivity) ?_
    have : (0 : ℚ) ≤ (((learnData rs).clusterKeys.length : ℕ) : ℚ) := by positivity
    push_cast at this ⊢
    linarith
  have htpos : 0 < p_token rs t := by
    rw [p_token]
    refine div_pos (by positivity) ?_
    have : (0 : ℚ) ≤ (((learnData rs).tokenKeys.length : ℕ) : ℚ) := by positivity
    push_cast at this ⊢
    linarith
  exact ⟨hj, hcpos, htpos, div_pos hj (mul_pos hcpos htpos), rfl⟩

/-- Claim C4 witness: the theorem applied to the one-record dataset, at a
label/token pair that does occur — and positivity holds equally at any
observed pair. -/
theorem C4_witness :
    0 < p_joint [⟨"abc", "", "", "x"⟩] "x" "abc" ∧
    0 < p_cluster [⟨"abc", "", "", "x"⟩] "x" ∧
    0 < p_token [⟨"abc", "", "", "x"⟩] "abc" ∧
    0 < pmiArg [⟨"abc", "", "", "x"⟩] "x" "abc" ∧
    pmiVal [⟨"abc", "", "", "x"⟩] "x" "abc" =
      Real.logb 2 ((pmiArg [⟨"abc", "", "", "x"⟩] "x" "abc" : ℚ) : ℝ) :=
  C4_pmi_argument_positive [⟨"abc", "", "", "x"⟩] (by decide) "x" "abc"
    (by decide) (by decide)

/-! ## Tokenization idempotence (claim C7)

The re-tokenization argument needs: (a) every token consists of kept,
lowercase-fixed, non-whitespace letters, so `clean` is the identity on a
space-joined token list; (b) splitting the joined list recovers the
tokens; (c) `max(..., key=len)` returns the unique longest element when
there is one.  The claim as stated fails when two parts tie for the
longest: the second pass may pick a different part and add its trigrams.
-/

lemma toNat_ofNatAux (n : ℕ) (h : n.isValidChar) :
    (Char.ofNatAux n h).toNat = n := rfl

lemma isPySpace_iff {c : Char} : isPySpace c = true ↔
    c.toNat = 32 ∨ c.toNat = 9 ∨ c.toNat = 10 ∨ c.toNat = 13 ∨
    c.toNat = 11 ∨ c.toNat = 12 := by
  simp [isPySpace]
  tauto

lemma isKeptLetter_iff {c : Char} : isKeptLetter c = true ↔
    (65 ≤ c.toNat ∧ c.toNat ≤ 90) ∨ (97 ≤ c.toNat ∧ c.toNat ≤ 122) ∨
    (192 ≤ c.toNat ∧ c.toNat ≤ 214) ∨ (216 ≤ c.toNat ∧ c.toNat ≤ 246) ∨
    (248 ≤ c.toNat ∧ c.toNat ≤ 255) := by
  simp [isKeptLetter]
  tauto

lemma pyLowerChar_toNat_of_upper {c : Char}
    (h : (65 ≤ c.toNat ∧ c.toNat ≤ 90) ∨ (192 ≤ c.toNat ∧ c.toNat ≤ 214) ∨
      (216 ≤ c.toNat ∧ c.toNat ≤ 222)) :
    (pyLowerChar c).toNat = c.toNat + 32 := by
  rw [pyLowerChar, dif_pos h, toNat_ofNatAux]

lemma pyLowerChar_eq_self {c : Char}
    (h : ¬((65 ≤ c.toNat ∧ c.toNat ≤ 90) ∨ (192 ≤ c.toNat ∧ c.toNat ≤ 214) ∨
      (216 ≤ c.toNat ∧ c.toNat ≤ 222))) :
    pyLowerChar c = c := by
  rw [pyLowerChar, dif_neg h]

lemma kept_not_space {c : Char} (h : isKeptLetter c = true) :
    isPySpace c = false := by
  rw [isKeptLetter_iff] at h
  rw [Bool.eq_false_iff]
  intro hs
  rw [isPySpace_iff] at hs
  omega

lemma space_lower_fixed {c : Char} (h : isPySpace c = true) :
    pyLowerChar c = c := by
  rw [isPySpace_iff] at h
  exact pyLowerChar_eq_self (by omega)

lemma keptOrSpace_subNonLetter (c : Char) :
    (isKeptLetter (subNonLetter c) || isPySpace (subNonLetter c)) = true := by
  unfold subNonLetter
  by_cases h : (isKeptLetter c || isPySpace c) = true
  · rw [if_pos h]
    exact h
  · rw [if_neg h]
    decide

lemma lower_keeps {c : Char} (h : (isKeptLetter c || isPySpace c) = true) :
    (isKeptLetter (pyLowerChar c) || isPySpace (pyLowerChar c)) = true ∧
    pyLowerChar (pyLowerChar c) = pyLowerChar c := by
  by_cases hu : (65 ≤ c.toNat ∧ c.toNat ≤ 90) ∨ (192 ≤ c.toNat ∧ c.toNat ≤ 214) ∨
      (216 ≤ c.toNat ∧ c.toNat ≤ 222)
  · have ht := pyLowerChar_toNat_of_upper hu
    constructor
    · rw [Bool.or_eq_true]
      left
      rw [isKeptLetter_iff, ht]
      omega
    · exact pyLowerChar_eq_self (by rw [ht]; omega)
  · have he : pyLowerChar c = c := pyLowerChar_eq_self hu
    rw [he]
    exact ⟨h, he⟩

/-- Characters that can occur inside a produced token: kept letters,
fixed by lowercasing, and not whitespace. -/
def goodWord (w : String) : Prop :=
  w ≠ "" ∧ ∀ c ∈ w.data, isPySpace c = false ∧ isKeptLetter c = true ∧
    pyLowerChar c = c

lemma mem_pyStrip {l : List Char} {c : Char} (h : c ∈ pyStrip l) : c ∈ l := by
  unfold pyStrip at h
  rw [List.mem_reverse] at h
  have h2 := (List.dropWhile_sublist isPySpace).subset h
  rw [List.mem_reverse] at h2
  exact (List.dropWhile_sublist isPySpace).subset h2

lemma clean_data_chars (s : String) :
    ∀ c ∈ (clean s).data, (isKeptLetter c || isPySpace c) = true ∧
      pyLowerChar c = c := by
  intro c hc
  have hc2 : c ∈ (s.data.map subNonLetter).map pyLowerChar := mem_pyStrip hc
  rw [List.mem_map] at hc2
  obtain ⟨d, hd, rfl⟩ := hc2
  rw [List.mem_map] at hd
  obtain ⟨d0, _, rfl⟩ := hd
  exact lower_keeps (keptOrSpace_subNonLetter d0)

lemma wordsAux_words {sep : Char → Bool} {Q : Char → Prop} :
    ∀ (l acc : List Char), (∀ c ∈ acc, sep c = false ∧ Q c) →
      (∀ c ∈ l, Q c) →
      ∀ w ∈ wordsAux sep l acc, w ≠ [] ∧ ∀ c ∈ w, sep c = false ∧ Q c := by
  intro l
  induction l with
  | nil =>
    intro acc hacc _ w hw
    unfold wordsAux at hw
    by_cases he : acc.isEmpty
    · rw [if_pos he] at hw
      exact absurd hw (List.not_mem_nil w)
    · rw [if_neg he] at hw
      rcases List.mem_singleton.mp hw with rfl
      refine ⟨?_, ?_⟩
      · intro hn
        rw [List.reverse_eq_nil_iff] at hn
        rw [hn] at he
        exact he rfl
      · intro c hcmem
        exact hacc c (List.mem_reverse.mp hcmem)
  | cons x xs ih =>
    intro acc hacc hl w hw
    unfold wordsAux at hw
    by_cases hx : sep x
    · rw [if_pos hx] at hw
      by_cases he : acc.isEmpty
      · rw [if_pos he] at hw
        exact ih [] (by simp) (fun c hc => hl c (List.mem_cons_of_mem x hc)) w hw
      · rw [if_neg he] at hw
        rcases List.mem_cons.mp hw with rfl | hw2
        · refine ⟨?_, fun c hcmem => hacc c (List.mem_reverse.mp hcmem)⟩
          intro hn
          rw [List.reverse_eq_nil_iff] at hn
          rw [hn] at he
          exact he rfl
        · exact ih [] (by simp) (fun c hc => hl c (List.mem_cons_of_mem x hc)) w hw2
    · rw [if_neg hx] at hw
      refine ih (x :: acc) ?_ (fun c hc => hl c (List.mem_cons_of_mem x hc)) w hw
      intro c hc
      rcases List.mem_cons.mp hc with rfl | hc2
      · exact ⟨Bool.eq_false_iff.mpr hx, hl c (List.mem_cons_self _ _)⟩
      · exact hacc c hc2

lemma data_ne_nil {w : String} (h : w ≠ "") : w.data ≠ [] := by
  intro hd
  apply h
  rw [← String.asString_toList w]
  show List.asString w.data = ""
  rw [hd]
  rfl

lemma asString_ne_empty {l : List Char} (h : l ≠ []) : List.asString l ≠ "" := by
  intro he
  rw [List.asString_eq] at he
  simp at he
  exact h he

lemma pySplit_clean_words (s : String) :
    ∀ w ∈ pySplit (clean s), goodWord w := by
  intro w hw
  rw [pySplit, List.mem_map] at hw
  obtain ⟨wl, hwl, rfl⟩ := hw
  have := wordsAux_words (Q := fun c => (isKeptLetter c || isPySpace c) = true ∧
    pyLowerChar c = c) (clean s).data [] (by simp)
    (clean_data_chars s) wl hwl
  refine ⟨asString_ne_empty this.1, ?_⟩
  intro c hc
  have hc2 := this.2 c hc
  have hkept : isKeptLetter c = true := by
    have hor : isKeptLetter c = true ∨ isPySpace c = true := by simpa using hc2.2.1
    rcases hor with h | h
    · exact h
    · rw [hc2.1] at h
      exact absurd h (by simp)
  exact ⟨hc2.1, hkept, hc2.2.2⟩

lemma foldl_maxBy_mem (xs : List String) :
    ∀ x : String,
      xs.foldl (fun b p => if p.length > b.length then p else b) x ∈ x :: xs := by
  induction xs with
  | nil => intro x; simp
  | cons y ys ih =>
    intro x
    rw [List.foldl_cons]
    have h := ih (if y.length > x.length then y else x)
    rcases List.mem_cons.mp h with he | hm
    · rw [he]
      by_cases hc : y.length > x.length
      · rw [if_pos hc]; exact List.mem_cons_of_mem _ (List.mem_cons_self _ _)
      · rw [if_neg hc]; exact List.mem_cons_self _ _
    · exact List.mem_cons_of_mem _ (List.mem_cons_of_mem _ hm)

lemma maxByLen_mem {l : List String} (h : l ≠ []) : maxByLen l ∈ l := by
  cases l with
  | nil => exact absurd rfl h
  | cons x xs => exact foldl_maxBy_mem xs x

lemma foldl_maxBy_le (xs : List String) :
    ∀ x : String,
      x.length ≤ (xs.foldl (fun b p => if p.length > b.length then p else b) x).length ∧
      ∀ p ∈ xs,
        p.length ≤ (xs.foldl (fun b p => if p.length > b.length then p else b) x).length := by
  induction xs with
  | nil => intro x; simp
  | cons y ys ih =>
    intro x
    rw [List.foldl_cons]
    obtain ⟨h1, h2⟩ := ih (if y.length > x.length then y else x)
    have hxy : x.length ≤ (if y.length > x.length then y else x).length ∧
        y.length ≤ (if y.length > x.length then y else x).length := by
      by_cases hc : y.length > x.length
      · rw [if_pos hc]; omega
      · rw [if_neg hc]; omega
    refine ⟨le_trans hxy.1 h1, ?_⟩
    intro p hp
    rcases List.mem_cons.mp hp with rfl | hm
    · exact le_trans hxy.2 h1
    · exact h2 p hm

lemma le_maxByLen {l : List String} (p : String) (hp : p ∈ l) :
    p.length ≤ (maxByLen l).length := by
  cases l with
  | nil => exact absurd hp (List.not_mem_nil p)
  | cons x xs =>
    rcases List.mem_cons.mp hp with rfl | hm
    · exact (foldl_maxBy_le xs p).1
    · exact (foldl_maxBy_le xs x).2 p hm

lemma char_trigrams_sound {w a : String} (ha : a ∈ char_trigrams w) :
    a.data.length = 3 ∧ (∀ c ∈ a.data, c ∈ w.data ∧ c ≠ ' ') ∧
    3 ≤ (w.data.filter (fun c => c ≠ ' ')).length := by
  rw [char_trigrams] at ha
  by_cases hlen : (w.data.filter (fun c => c ≠ ' ')).length < 3
  · rw [if_pos hlen] at ha
    exact absurd ha (List.not_mem_nil a)
  · rw [if_neg hlen] at ha
    rw [List.mem_map] at ha
    obtain ⟨i, hi, rfl⟩ := ha
    rw [List.mem_range] at hi
    have hdata : (List.asString (((w.data.filter (fun c => c ≠ ' ')).drop i).take 3)).data
        = ((w.data.filter (fun c => c ≠ ' ')).drop i).take 3 := rfl
    refine ⟨?_, ?_, by omega⟩
    · rw [hdata, List.length_take, List.length_drop]
      omega
    · intro c hc
      rw [hdata] at hc
      have h2 := (List.take_subset _ _) hc
      have h3 := (List.drop_subset _ _) h2
      have h4 := List.mem_filter.mp h3
      exact ⟨h4.1, by simpa using h4.2⟩

lemma char_trigrams_of_length_three {w : String}
    (hf : w.data.filter (fun c => c ≠ ' ') = w.data)
    (hw : w.data.length = 3) :
    char_trigrams w = [w] := by
  rw [char_trigrams, hf, hw]
  rw [if_neg (by omega)]
  have : (3 : ℕ) - 2 = 1 := rfl
  rw [this, show List.range 1 = [0] from rfl, List.map_singleton, List.drop_zero,
    List.take_of_length_le (by omega)]
  rw [← String.asString_toList w]
  rfl

lemma wordsAux_nil (sep : Char → Bool) (acc : List Char) :
    wordsAux sep [] acc = if acc.isEmpty then [] else [acc.reverse] := rfl

lemma wordsAux_cons (sep : Char → Bool) (c : Char) (rest acc : List Char) :
    wordsAux sep (c :: rest) acc =
      if sep c then
        (if acc.isEmpty then wordsAux sep rest []
         else acc.reverse :: wordsAux sep rest [])
      else wordsAux sep rest (c :: acc) := rfl

lemma pyStrip_eq_self {l : List Char}
    (h1 : ∀ c, l.head? = some c → isPySpace c = false)
    (h2 : ∀ c, l.getLast? = some c → isPySpace c = false) : pyStrip l = l := by
  have e1 : l.dropWhile isPySpace = l := by
    cases l with
    | nil => rfl
    | cons x xs =>
      exact List.dropWhile_cons_of_neg (by simp [h1 x rfl])
  rw [pyStrip, e1]
  have e2 : l.reverse.dropWhile isPySpace = l.reverse := by
    cases hr : l.reverse with
    | nil => rfl
    | cons y ys =>
      refine List.dropWhile_cons_of_neg ?_
      have hy : l.getLast? = some y := by
        rw [← List.head?_reverse, hr]
        rfl
      simp [h2 y hy]
  rw [e2, List.reverse_reverse]

lemma wordsAux_chunk (w : List Char) (hw : ∀ c ∈ w, isPySpace c = false) :
    ∀ (l acc : List Char),
      wordsAux isPySpace (w ++ l) acc = wordsAux isPySpace l (w.reverse ++ acc) := by
  induction w with
  | nil => intro l acc; simp
  | cons c cs ih =>
    intro l acc
    rw [List.cons_append, wordsAux_cons,
      if_neg (by simp [hw c (List.mem_cons_self _ _)]),
      ih (fun d hd => hw d (List.mem_cons_of_mem c hd)) l (c :: acc)]
    congr 1
    simp

lemma goodWord_data_nospace {w : String} (h : goodWord w) :
    ∀ c ∈ w.data, isPySpace c = false :=
  fun c hc => (h.2 c hc).1

lemma pySplit_joinWords : ∀ (ws : List String), (∀ w ∈ ws, goodWord w) →
    pySplit (joinWords ws) = ws := by
  intro ws
  induction ws with
  | nil => intro _; rfl
  | cons w vs ih =>
    intro h
    have hw : goodWord w := h w (List.mem_cons_self _ _)
    have hwd : w.data ≠ [] := data_ne_nil hw.1
    cases vs with
    | nil =>
      show (wordsAux isPySpace w.data []).map List.asString = [w]
      have : wordsAux isPySpace (w.data ++ []) [] =
          wordsAux isPySpace [] (w.data.reverse ++ []) :=
        wordsAux_chunk w.data (goodWord_data_nospace hw) [] []
      rw [List.append_nil] at this
      rw [this, List.append_nil, wordsAux_nil,
        if_neg (by simp [List.isEmpty_iff, List.reverse_eq_nil_iff, hwd]),
        List.reverse_reverse, List.map_singleton]
      rw [← String.asString_toList w]
      rfl
    | cons v rest =>
      have hjdata : (joinWords (w :: v :: rest)).data =
          w.data ++ (' ' :: (joinWords (v :: rest)).data) := by
        show (w ++ " " ++ joinWords (v :: rest)).data = _
        rw [String.data_append, String.data_append]
        simp
      show (wordsAux isPySpace (joinWords (w :: v :: rest)).data []).map
          List.asString = w :: v :: rest
      rw [hjdata, wordsAux_chunk w.data (goodWord_data_nospace hw) _ [],
        List.append_nil, wordsAux_cons, if_pos (by decide),
        if_neg (by simp [List.isEmpty_iff, List.reverse_eq_nil_iff, hwd]),
        List.reverse_reverse, List.map_cons]
      have hvs := ih (fun u hu => h u (List.mem_cons_of_mem w hu))
      rw [show (wordsAux isPySpace (joinWords (v :: rest)).data []).map List.asString
          = v :: rest from hvs]
      rw [← String.asString_toList w]
      rfl

lemma joinWords_data_cons_cons (w v : String) (rest : List String) :
    (joinWords (w :: v :: rest)).data =
      w.data ++ (' ' :: (joinWords (v :: rest)).data) := by
  show (w ++ " " ++ joinWords (v :: rest)).data = _
  rw [String.data_append, String.data_append]
  simp

lemma joinWords_data_ne_nil (ws : List String) (hne : ws ≠ [])
    (h : ∀ w ∈ ws, goodWord w) : (joinWords ws).data ≠ [] := by
  cases ws with
  | nil => exact absurd rfl hne
  | cons w vs =>
    have hwd : w.data ≠ [] := data_ne_nil (h w (List.mem_cons_self _ _)).1
    cases vs with
    | nil => exact hwd
    | cons v rest =>
      rw [joinWords_data_cons_cons]
      intro hx
      exact hwd (List.append_eq_nil.mp hx).1

lemma joinWords_chars {ws : List String} (h : ∀ w ∈ ws, goodWord w) :
    ∀ c ∈ (joinWords ws).data,
      (isKeptLetter c || isPySpace c) = true ∧ pyLowerChar c = c := by
  induction ws with
  | nil => intro c hc; exact absurd hc (List.not_mem_nil c)
  | cons w vs ih =>
    intro c hc
    have hw := h w (List.mem_cons_self _ _)
    cases vs with
    | nil =>
      have hcw : c ∈ w.data := hc
      have h2 := hw.2 c hcw
      exact ⟨by rw [h2.2.1]; rfl, h2.2.2⟩
    | cons v rest =>
      rw [joinWords_data_cons_cons] at hc
      rcases List.mem_append.mp hc with h1 | h1
      · have h2 := hw.2 c h1
        exact ⟨by rw [h2.2.1]; rfl, h2.2.2⟩
      · rcases List.mem_cons.mp h1 with rfl | h2
        · exact ⟨by decide, by decide⟩
        · exact ih (fun u hu => h u (List.mem_cons_of_mem _ hu)) c h2

lemma joinWords_head_nospace (w : String) (vs : List String)
    (hgood : ∀ u ∈ w :: vs, goodWord u) :
    ∀ c, (joinWords (w :: vs)).data.head? = some c → isPySpace c = false := by
  intro c hc
  have hw := hgood w (List.mem_cons_self _ _)
  cases hwd : w.data with
  | nil => exact absurd hwd (data_ne_nil hw.1)
  | cons c0 cs0 =>
    have hc0 : c = c0 := by
      cases vs with
      | nil =>
        have hc2 : w.data.head? = some c := hc
        rw [hwd] at hc2
        simpa using hc2.symm
      | cons v rest =>
        rw [joinWords_data_cons_cons, hwd, List.cons_append] at hc
        simpa using hc.symm
    subst hc0
    exact (hw.2 c (by rw [hwd]; exact List.mem_cons_self _ _)).1

lemma joinWords_getLast_nospace : ∀ (ws : List String), ws ≠ [] →
    (∀ w ∈ ws, goodWord w) →
    ∀ c, (joinWords ws).data.getLast? = some c → isPySpace c = false := by
  intro ws
  induction ws with
  | nil => intro h; exact absurd rfl h
  | cons w vs ih =>
    intro _ hgood c hc
    cases vs with
    | nil =>
      have hw := hgood w (List.mem_cons_self _ _)
      have hcmem : c ∈ w.data := List.mem_of_getLast?_eq_some hc
      exact (hw.2 c hcmem).1
    | cons v rest =>
      rw [joinWords_data_cons_cons, List.getLast?_append] at hc
      have htail_ne : (joinWords (v :: rest)).data ≠ [] :=
        joinWords_data_ne_nil _ (by simp)
          (fun u hu => hgood u (List.mem_cons_of_mem _ hu))
      obtain ⟨c2, hc2⟩ := Option.isSome_iff_exists.mp
        (List.getLast?_isSome.mpr htail_ne)
      have hcons : (' ' :: (joinWords (v :: rest)).data).getLast? = some c2 := by
        rw [show (' ' :: (joinWords (v :: rest)).data) =
          [' '] ++ (joinWords (v :: rest)).data from rfl, List.getLast?_append, hc2]
        rfl
      rw [hcons] at hc
      simp only [Option.or_some, Option.some.injEq] at hc
      subst hc
      exact ih (by simp) (fun u hu => hgood u (List.mem_cons_of_mem _ hu)) c2 hc2

lemma subNonLetter_id {c : Char} (h : (isKeptLetter c || isPySpace c) = true) :
    subNonLetter c = c := if_pos h

lemma mapId_of_fix {f : Char → Char} :
    ∀ l : List Char, (∀ c ∈ l, f c = c) → l.map f = l := by
  intro l
  induction l with
  | nil => intro _; rfl
  | cons c cs ih =>
    intro h
    rw [List.map_cons, h c (List.mem_cons_self _ _),
      ih (fun d hd => h d (List.mem_cons_of_mem _ hd))]

lemma clean_joinWords (ws : List String) (h : ∀ w ∈ ws, goodWord w) :
    clean (joinWords ws) = joinWords ws := by
  cases ws with
  | nil => rfl
  | cons w vs =>
    have hchars := joinWords_chars h
    have e1 : (joinWords (w :: vs)).data.map subNonLetter =
        (joinWords (w :: vs)).data :=
      mapId_of_fix _ (fun c hc => subNonLetter_id (hchars c hc).1)
    have e2 : (joinWords (w :: vs)).data.map pyLowerChar =
        (joinWords (w :: vs)).data :=
      mapId_of_fix _ (fun c hc => (hchars c hc).2)
    have e3 : pyStrip (joinWords (w :: vs)).data = (joinWords (w :: vs)).data :=
      pyStrip_eq_self (joinWords_head_nospace w vs h)
        (joinWords_getLast_nospace _ (by simp) h)
    rw [clean, e1, e2, e3]
    exact String.asString_toList _

lemma mem_name_tokens_single {s a : String} :
    a ∈ name_tokens s "" "" ↔
      ((a ∈ pySplit (clean s) ∨
        a ∈ (char_trigrams (maxByLen (pySplit (clean s)))).take 5) ∧
       2 ≤ a.length) := by
  have hempty : pySplit (clean "") = [] := rfl
  simp [name_tokens, hempty]

lemma name_tokens_single_members {s a : String} (ha : a ∈ name_tokens s "" "") :
    goodWord a ∧ 2 ≤ a.length ∧
      a.length ≤ (maxByLen (pySplit (clean s))).length := by
  rw [mem_name_tokens_single] at ha
  obtain ⟨hmem, hlen⟩ := ha
  rcases hmem with hp | ht
  · exact ⟨pySplit_clean_words s a hp, hlen, le_maxByLen a hp⟩
  · have ht2 := List.take_subset 5 _ ht
    obtain ⟨h3, hchars, hfl⟩ := char_trigrams_sound ht2
    have hparts : pySplit (clean s) ≠ [] := by
      intro hp0
      rw [hp0] at hfl
      revert hfl
      decide
    have hLmem := maxByLen_mem hparts
    have hLgood := pySplit_clean_words s _ hLmem
    have hadata : a.data ≠ [] := by
      intro hx
      rw [hx] at h3
      exact absurd h3 (by decide)
    refine ⟨⟨?_, ?_⟩, hlen, ?_⟩
    · intro hx
      exact hadata (by rw [hx])
    · intro c hc
      exact hLgood.2 c (hchars c hc).1
    · have hfle := List.length_filter_le (fun c => c ≠ ' ')
        (maxByLen (pySplit (clean s))).data
      have : a.length = a.data.length := rfl
      have hLl : (maxByLen (pySplit (clean s))).length =
          (maxByLen (pySplit (clean s))).data.length := rfl
      omega

lemma name_tokens_single_unique {s a : String}
    (h : ∀ p ∈ pySplit (clean s),
      p.length = (maxByLen (pySplit (clean s))).length →
      p = maxByLen (pySplit (clean s)))
    (ha : a ∈ name_tokens s "" "")
    (hlen : a.length = (maxByLen (pySplit (clean s))).length) :
    a = maxByLen (pySplit (clean s)) := by
  rw [mem_name_tokens_single] at ha
  rcases ha.1 with hp | ht
  · exact h a hp hlen
  · have ht2 := List.take_subset 5 _ ht
    obtain ⟨h3, hchars, hfl⟩ := char_trigrams_sound ht2
    have hparts : pySplit (clean s) ≠ [] := by
      intro hp0
      rw [hp0] at hfl
      revert hfl
      decide
    have hLgood := pySplit_clean_words s _ (maxByLen_mem hparts)
    have hLfilter : (maxByLen (pySplit (clean s))).data.filter (fun c => c ≠ ' ') =
        (maxByLen (pySplit (clean s))).data := by
      rw [List.filter_eq_self]
      intro c hc
      have := (hLgood.2 c hc).1
      simp only [ne_eq, decide_not, Bool.not_eq_eq_eq_not, Bool.not_true,
        decide_eq_false_iff_not]
      intro hceq
      rw [hceq] at this
      exact absurd this (by decide)
    have hL3 : (maxByLen (pySplit (clean s))).data.length = 3 := by
      have ha3 : a.length = a.data.length := rfl
      have hLl : (maxByLen (pySplit (clean s))).length =
          (maxByLen (pySplit (clean s))).data.length := rfl
      rw [hLfilter] at hfl
      omega
    have := char_trigrams_of_length_three hLfilter hL3
    rw [this] at ht
    have := List.take_subset 5 _ ht
    simpa using this

/-- Claim C7 counterexample: tokenization is not idempotent.  For
`"zbcd efgh"` the two parts tie in length; the first pass takes the
trigrams of `"zbcd"` (Python `max` keeps the first maximum), but
re-tokenizing the token set — whose canonical listing starts elsewhere —
selects `"efgh"` as the longest part and adds its trigrams `"efg"`,
`"fgh"`, producing a strictly larger set. -/
theorem C7_counterexample :
    retok (name_tokens_list "zbcd efgh" "" "") ≠ name_tokens "zbcd efgh" "" "" := by
  decide

/-- Claim C7 as amended: re-tokenizing the extracted token set returns
exactly the same set provided no distinct part ties the longest part's
length (in particular for every single-word name); with such a tie the
second pass may choose a different longest part and add its trigrams. -/
theorem C7_amended_idempotent_unless_tie (s : String)
    (h : ∀ p ∈ pySplit (clean s),
      p.length = (maxByLen (pySplit (clean s))).length →
      p = maxByLen (pySplit (clean s))) :
    retok (name_tokens_list s "" "") = name_tokens s "" "" := by
  have hl2S : ∀ a : String,
      a ∈ name_tokens_list s "" "" ↔ a ∈ name_tokens s "" "" := by
    intro a
    rw [← List.mem_toFinset, name_tokens_list_toFinset]
  by_cases hempty : name_tokens_list s "" "" = []
  · rw [hempty]
    have hS : name_tokens s "" "" = ∅ := by
      rw [← name_tokens_list_toFinset, hempty]
      rfl
    rw [hS]
    decide
  · have hmembers : ∀ a ∈ name_tokens_list s "" "", goodWord a :=
      fun a ha => (name_tokens_single_members ((hl2S a).mp ha)).1
    have hparts2 : pySplit (clean (joinWords (name_tokens_list s "" ""))) =
        name_tokens_list s "" "" := by
      rw [clean_joinWords _ hmembers, pySplit_joinWords _ hmembers]
    obtain ⟨a0, ha0⟩ := List.exists_mem_of_ne_nil _ hempty
    have ha0S := (hl2S a0).mp ha0
    have ha0facts := name_tokens_single_members ha0S
    have hparts : pySplit (clean s) ≠ [] := by
      intro hp0
      have hmm := mem_name_tokens_single.mp ha0S
      rw [hp0] at hmm
      rcases hmm.1 with hx | hx
      · exact absurd hx (List.not_mem_nil a0)
      · have he : (char_trigrams (maxByLen ([] : List String))).take 5 = [] := rfl
        rw [he] at hx
        exact absurd hx (List.not_mem_nil a0)
    have hL2 : 2 ≤ (maxByLen (pySplit (clean s))).length :=
      le_trans ha0facts.2.1 ha0facts.2.2
    have hLS : maxByLen (pySplit (clean s)) ∈ name_tokens s "" "" := by
      rw [mem_name_tokens_single]
      exact ⟨Or.inl (maxByLen_mem hparts), hL2⟩
    have hLl2 : maxByLen (pySplit (clean s)) ∈ name_tokens_list s "" "" :=
      (hl2S _).mpr hLS
    have hmax2 : maxByLen (name_tokens_list s "" "") = maxByLen (pySplit (clean s)) := by
      have hm2mem := maxByLen_mem hempty
      have hm2S := (hl2S _).mp hm2mem
      have b1 : (maxByLen (name_tokens_list s "" "")).length ≤
          (maxByLen (pySplit (clean s))).length :=
        (name_tokens_single_members hm2S).2.2
      have b2 : (maxByLen (pySplit (clean s))).length ≤
          (maxByLen (name_tokens_list s "" "")).length :=
        le_maxByLen _ hLl2
      exact name_tokens_single_unique h hm2S (le_antisymm b1 b2)
    ext a
    rw [show retok (name_tokens_list s "" "") =
      name_tokens (joinWords (name_tokens_list s "" "")) "" "" from rfl,
      mem_name_tokens_single, hparts2, hmax2]
    constructor
    · rintro ⟨h1 | h1, hlen⟩
      · exact (hl2S a).mp h1
      · rw [mem_name_tokens_single]
        exact ⟨Or.inr h1, hlen⟩
    · intro haS
      exact ⟨Or.inl ((hl2S a).mpr haS),
        (name_tokens_single_members haS).2.1⟩

/-- Claim C7 witness: the amended theorem applied to a concrete name with
a unique longest part. -/
theorem C7_witness :
    retok (name_tokens_list "Ada Lovelace" "" "") =
      name_tokens "Ada Lovelace" "" "" :=
  C7_amended_idempotent_unless_tie "Ada Lovelace" (by decide)

example : clean "Hans-Jörg  Schmidt3" = "hans jörg  schmidt" := by decide
example : pySplit "  ab  cd " = ["ab", "cd"] := by decide
example : char_trigrams "lovelace" = ["lov", "ove", "vel", "ela", "lac", "ace"] := by decide
example : name_tokens "Ada Lovelace" "" "" =
    {"ada", "lovelace", "lov", "ove", "vel", "ela", "lac"} := by decide
example : name_tokens "!!!" "" "" = ∅ := by decide
example : maxByLen ["abcd", "efgh"] = "abcd" := by decide

end NomenPipeline
